import Mathlib

/-!
Shallow embedding of the chunking algorithm of `src/main.rs`
(repository `split_chunks_algorithm`).

The Rust program builds a module graph (petgraph `Graph<JsModule, Dependency>`),
then runs five passes (the comments in `main` call them Step 1 .. Step 5) that
produce a chunk graph (`Graph<Chunk, i32>`).  The embedding below models:

* petgraph `Graph` as a list of node weights plus a list of edges in insertion
  order.  petgraph stores, per node, a linked list of incident edges with
  newest-first iteration, so `neighbors` yields targets in *reverse* edge
  insertion order; edge removal splices the linked list and preserves the
  relative order of the remaining edges, which is what the reversed filtered
  list below computes.  `remove_node` swap-removes: the last node adopts the
  removed index (and its edges are renamed accordingly).
* `HashMap`/`HashSet` as association lists / lists iterated in first-insertion
  order (`insert` on an existing key replaces the value in place).  Rust's
  actual iteration order is unspecified; first-insertion order is this
  embedding's deterministic choice, and it is noted wherever a result depends
  on it.
* Rust panics (`unwrap`, out-of-bounds indexing of `Graph` / `HashMap`) as
  `Except.error`.
* petgraph's `depth_first_search` as a fueled task-list interpreter firing the
  same events (`Discover`, `TreeEdge`, `BackEdge`, `CrossForwardEdge`,
  `Finish`) in the same order and honoring `Control::Prune` the same way
  (prune at `Discover` skips the neighbor scan but still fires `Finish`;
  prune at `TreeEdge` skips that child).  Fuel exhaustion is an `error`,
  never a silent truncation, and the supplied fuel strictly exceeds the
  number of interpreter steps any run can take.
-/

set_option linter.unusedVariables false

/-- Rust struct `JsModule { name: &str, size: usize }`. -/
structure JsModule where
  name : String
  size : Nat
  deriving Repr, DecidableEq

/-- Rust struct `Dependency { is_async: bool }`. -/
structure Dependency where
  is_async : Bool
  deriving Repr, DecidableEq

/-- Rust struct `Chunk { module_ids: Vec<NodeIndex>, size: usize,
source_bundles: Vec<NodeIndex> }`. -/
structure Chunk where
  module_ids : List Nat
  size : Nat
  source_bundles : List Nat
  deriving Repr, DecidableEq

/-- `Chunk::default()`. -/
instance : Inhabited Chunk := ⟨⟨[], 0, []⟩⟩

/-- `Chunk::from_asset`. -/
def Chunk.from_asset (asset_id : Nat) (asset : JsModule) : Chunk :=
  { module_ids := [asset_id], size := asset.size, source_bundles := [] }

/-- The module graph `Graph<JsModule, Dependency>`: node weights indexed by
position, edges `(source, target, weight)` in insertion order. -/
structure MGraph where
  nodes : List JsModule
  edges : List (Nat × Nat × Dependency)
  deriving Repr, DecidableEq

/-- petgraph `neighbors` (outgoing, directed): targets of the out-edges of `u`
in reverse insertion order (petgraph's per-node edge list is newest-first). -/
def MGraph.outNeighbors (g : MGraph) (u : Nat) : List Nat :=
  ((g.edges.filter (fun e => e.1 == u)).map (fun e => e.2.1)).reverse

/-- Indexing `g[i]` on node weights; panics (error) when out of bounds. -/
def MGraph.getNode (g : MGraph) (i : Nat) : Except String JsModule :=
  match g.nodes.get? i with
  | some m => .ok m
  | none => .error "module index out of bounds"

/-- `g[g.find_edge(u, v).unwrap()]`: `find_edge` walks `u`'s out-edge list
(newest first), so the weight of the most recently inserted `u → v` edge is
returned. -/
def MGraph.findEdgeDep (g : MGraph) (u v : Nat) : Option Dependency :=
  ((g.edges.filter (fun e => e.1 == u)).reverse.find? (fun e => e.2.1 == v)).map
    (fun e => e.2.2)

/-- The chunk graph `Graph<Chunk, i32>`.  Every edge the program adds carries
weight `0`, so the weight is omitted from the embedding. -/
structure ChunkGraph where
  nodes : List Chunk
  edges : List (Nat × Nat)
  deriving Repr, DecidableEq

/-- `add_node`: returns the fresh index and the extended graph. -/
def ChunkGraph.addNode (cg : ChunkGraph) (c : Chunk) : Nat × ChunkGraph :=
  (cg.nodes.length, { cg with nodes := cg.nodes ++ [c] })

/-- `add_edge`; petgraph panics when an endpoint index is invalid. -/
def ChunkGraph.addEdge (cg : ChunkGraph) (a b : Nat) : Except String ChunkGraph :=
  if a < cg.nodes.length ∧ b < cg.nodes.length then
    .ok { cg with edges := cg.edges ++ [(a, b)] }
  else .error "add_edge endpoint out of bounds"

/-- Indexing `chunk_graph[i]`; panics (error) when out of bounds. -/
def ChunkGraph.getChunk (cg : ChunkGraph) (i : Nat) : Except String Chunk :=
  match cg.nodes.get? i with
  | some c => .ok c
  | none => .error "chunk index out of bounds"

/-- Mutation through `&mut chunk_graph[i]`; panics (error) when out of
bounds. -/
def ChunkGraph.modifyChunk (cg : ChunkGraph) (i : Nat) (f : Chunk → Chunk) :
    Except String ChunkGraph :=
  if i < cg.nodes.length then
    .ok { cg with nodes := cg.nodes.set i (f (cg.nodes.getD i default)) }
  else .error "chunk index out of bounds"

/-- petgraph `neighbors` on the chunk graph (outgoing, reverse insertion
order). -/
def ChunkGraph.outNeighbors (cg : ChunkGraph) (u : Nat) : List Nat :=
  ((cg.edges.filter (fun e => e.1 == u)).map (fun e => e.2)).reverse

/-- `neighbors_directed(v, Incoming).count()`. -/
def ChunkGraph.incomingCount (cg : ChunkGraph) (v : Nat) : Nat :=
  (cg.edges.filter (fun e => e.2 == v)).length

/-- petgraph `remove_node`: drop all edges incident to `i`, then swap-remove
the node — the last node adopts index `i` and its edges are renamed.  The
relative order of surviving edges is preserved, matching the per-node linked
lists petgraph iterates. -/
def ChunkGraph.removeNode (cg : ChunkGraph) (i : Nat) :
    Except String (Chunk × ChunkGraph) :=
  match cg.nodes.get? i with
  | none => .error "remove_node: node does not exist"
  | some c =>
    let last := cg.nodes.length - 1
    let kept := cg.edges.filter (fun e => ¬ (e.1 == i ∨ e.2 == i))
    let ren : Nat → Nat := fun j => if j == last then i else j
    .ok (c, { nodes := (cg.nodes.set i (cg.nodes.getD last default)).dropLast,
              edges := kept.map (fun e => (ren e.1, ren e.2)) })

/-- `remove_edge(find_edge(a, b).unwrap())`: `find_edge` returns the most
recently inserted `a → b` edge, so the *last* occurrence in insertion order is
removed. -/
def ChunkGraph.removeEdgeLastOcc (cg : ChunkGraph) (a b : Nat) :
    Except String ChunkGraph :=
  match (cg.edges.reverse.findIdx? (fun e => e == (a, b))) with
  | none => .error "remove_edge: find_edge unwrap failed"
  | some k =>
    .ok { cg with edges := (cg.edges.reverse.eraseIdx k).reverse }

/-- HashMap insert: replace the value in place when the key is present, else
append (first-insertion iteration order). -/
def insertRep {α β : Type} [DecidableEq α] :
    List (α × β) → α → β → List (α × β)
  | [], k, v => [(k, v)]
  | (k1, v1) :: t, k, v =>
    if k1 = k then (k, v) :: t else (k1, v1) :: insertRep t k v

/-! ## petgraph `depth_first_search` -/

/-- `Control`: our handlers only ever produce `Continue` or `Prune`. -/
inductive Ctrl | cont | prune
  deriving Repr, DecidableEq

/-- `DfsEvent` (the `Time` payloads of `Discover`/`Finish` are unused by the
program and omitted). -/
inductive DfsEvent
  | discover (u : Nat)
  | treeEdge (u v : Nat)
  | backEdge (u v : Nat)
  | crossForwardEdge (u v : Nat)
  | finish (u : Nat)
  deriving Repr, DecidableEq

/-- Pending work of the DFS interpreter: visit a node, scan the remaining
neighbors of a node, or finish a node. -/
inductive DfsTask
  | visit (u : Nat)
  | scan (u : Nat) (ns : List Nat)
  | close (u : Nat)
  deriving Repr, DecidableEq

/-- The discovered/finished visit maps together with the visitor's mutable
state. -/
structure DfsSt (S : Type) where
  discovered : List Nat
  finished : List Nat
  st : S

/-- Fueled interpreter for petgraph's recursive `dfs_visitor`, linearized into
an explicit task list so that the recursion is structural.  Event order is
identical to petgraph's: mark discovered, fire `Discover` (prune skips the
neighbor scan but not `Finish`); per undiscovered neighbor fire `TreeEdge`
(prune skips that child) then recurse; `BackEdge`/`CrossForwardEdge` for
discovered neighbors; finally mark finished and fire `Finish`.  Running out of
fuel is an error; pruning on `Finish` is the petgraph panic. -/
def dfsRun {S : Type} (nbrs : Nat → List Nat)
    (h : S → DfsEvent → Except String (S × Ctrl)) :
    Nat → List DfsTask → DfsSt S → Except String (DfsSt S)
  | _, [], s => .ok s
  | 0, _ :: _, _ => .error "dfs fuel exhausted"
  | fuel + 1, t :: rest, s =>
    match t with
    | .visit u =>
      if u ∈ s.discovered then dfsRun nbrs h fuel rest s
      else
        match h s.st (.discover u) with
        | .error e => .error e
        | .ok (st1, c) =>
          let s1 : DfsSt S := { s with discovered := u :: s.discovered, st := st1 }
          match c with
          | .prune => dfsRun nbrs h fuel (.close u :: rest) s1
          | .cont => dfsRun nbrs h fuel (.scan u (nbrs u) :: .close u :: rest) s1
    | .scan _ [] => dfsRun nbrs h fuel rest s
    | .scan u (v :: vs) =>
      if v ∈ s.discovered then
        if v ∈ s.finished then
          match h s.st (.crossForwardEdge u v) with
          | .error e => .error e
          | .ok (st1, _) => dfsRun nbrs h fuel (.scan u vs :: rest) { s with st := st1 }
        else
          match h s.st (.backEdge u v) with
          | .error e => .error e
          | .ok (st1, _) => dfsRun nbrs h fuel (.scan u vs :: rest) { s with st := st1 }
      else
        match h s.st (.treeEdge u v) with
        | .error e => .error e
        | .ok (st1, c) =>
          match c with
          | .prune => dfsRun nbrs h fuel (.scan u vs :: rest) { s with st := st1 }
          | .cont =>
            dfsRun nbrs h fuel (.visit v :: .scan u vs :: rest) { s with st := st1 }
    | .close u =>
      match h s.st (.finish u) with
      | .error e => .error e
      | .ok (st1, c) =>
        match c with
        | .prune => .error "pruning on Finish is not supported"
        | .cont => dfsRun nbrs h fuel rest { s with finished := u :: s.finished, st := st1 }

/-- Fuel that strictly dominates the number of interpreter steps: a run
processes at most `starts + edges` visit tasks, `nodes + edges` scan tasks and
`nodes` close tasks. -/
def dfsFuel (g : MGraph) (starts : List Nat) : Nat :=
  8 * (g.nodes.length + g.edges.length + starts.length + 1)

/-- `depth_first_search(&g, starts, visitor)`: one shared discovered/finished
map, visiting the starts in order. -/
def depthFirstSearch {S : Type} (g : MGraph) (starts : List Nat)
    (h : S → DfsEvent → Except String (S × Ctrl)) (s0 : S) : Except String S :=
  match dfsRun g.outNeighbors h (dfsFuel g starts) (starts.map .visit)
      ⟨[], [], s0⟩ with
  | .error e => .error e
  | .ok s => .ok s.st

/-! ## Step 1: root seeding and async split discovery (main.rs lines 48-91) -/

/-- The mutable state of `main` during Step 1: `chunk_roots`,
`reachable_chunks`, `chunk_graph` and the traversal stack (a `LinkedList`
with `push_front`/`pop_front`, iterated front to back). -/
structure DiscoverySt where
  chunk_roots : List (Nat × Nat × Nat)
  reachable_chunks : List (Nat × Nat)
  chunk_graph : ChunkGraph
  stack : List (Nat × Nat)
  deriving Repr, DecidableEq

/-- The Step-1 DFS visitor closure (main.rs lines 58-91).  `Discover` pushes a
frame when the node is a chunk root; `TreeEdge` looks the dependency up
(`find_edge(..).unwrap()`), and when it is async creates a chunk for the
importee, registers it in `chunk_roots`, and records `(frame, importee)` in
`reachable_chunks` for every stack frame; `Finish` pops the top frame when it
belongs to the finished node. -/
def discoveryHandler (g : MGraph) (s : DiscoverySt) (ev : DfsEvent) :
    Except String (DiscoverySt × Ctrl) :=
  match ev with
  | .discover u =>
    match List.lookup u s.chunk_roots with
    | some (_, gid) => .ok ({ s with stack := (u, gid) :: s.stack }, .cont)
    | none => .ok (s, .cont)
  | .treeEdge u v =>
    match g.findEdgeDep u v with
    | none => .error "find_edge unwrap failed"
    | some dep =>
      if dep.is_async then
        match g.getNode v with
        | .error e => .error e
        | .ok m =>
          let p := s.chunk_graph.addNode (Chunk.from_asset v m)
          .ok ({ chunk_roots := insertRep s.chunk_roots v (p.1, p.1),
                 reachable_chunks :=
                   s.reachable_chunks ++ s.stack.map (fun f => (f.1, v)),
                 chunk_graph := p.2,
                 stack := s.stack }, .cont)
      else .ok (s, .cont)
  | .finish u =>
    match s.stack with
    | [] => .ok (s, .cont)
    | (m, gid) :: t =>
      if m = u then .ok ({ s with stack := t }, .cont) else .ok (s, .cont)
  | _ => .ok (s, .cont)

/-- The entry loop of Step 1 (main.rs lines 50-53): one chunk per entry,
`chunk_roots[entry] = (id, id)`. -/
def seedChunks (g : MGraph) :
    List Nat → List (Nat × Nat × Nat) × ChunkGraph →
    Except String (List (Nat × Nat × Nat) × ChunkGraph)
  | [], acc => .ok acc
  | e :: rest, acc =>
    match g.getNode e with
    | .error err => .error err
    | .ok m =>
      let p := acc.2.addNode (Chunk.from_asset e m)
      seedChunks g rest (insertRep acc.1 e (p.1, p.1), p.2)

/-- Step 1 = seed the entry chunks, then run the discovery DFS from all
entries. -/
def step1 (g : MGraph) (entries : List Nat) : Except String DiscoverySt :=
  match seedChunks g entries ([], ⟨[], []⟩) with
  | .error e => .error e
  | .ok (roots, cg) =>
    depthFirstSearch g entries (discoveryHandler g) ⟨roots, [], cg, []⟩

/-! ## Step 2: per-root reachability (main.rs lines 97-116) -/

/-- The Step-2 visitor closure: on `Discover n`, skip the root itself, prune
at any other chunk root, otherwise record `(root, n)`.  Note the prune check
happens *before* the insertion, so chunk roots are never recorded as
targets. -/
def reachHandler (roots : List (Nat × Nat × Nat)) (root : Nat)
    (rm : List (Nat × Nat)) (ev : DfsEvent) :
    Except String (List (Nat × Nat) × Ctrl) :=
  match ev with
  | .discover n =>
    if n = root then .ok (rm, .cont)
    else if (List.lookup n roots).isSome then .ok (rm, .prune)
    else .ok (rm ++ [(root, n)], .cont)
  | _ => .ok (rm, .cont)

/-- The Step-2 loop: a fresh `depth_first_search(&g, Some(root), ..)` for each
`chunk_roots` key, all inserting into one shared `reachable_nodes` set. -/
def step2Go (g : MGraph) (roots : List (Nat × Nat × Nat)) :
    List (Nat × Nat × Nat) → List (Nat × Nat) →
    Except String (List (Nat × Nat))
  | [], rm => .ok rm
  | (root, _) :: rest, rm =>
    match depthFirstSearch g [root] (reachHandler roots root) rm with
    | .error e => .error e
    | .ok rm1 => step2Go g roots rest rm1

/-- Step 2: the `reachable_nodes` relation. -/
def step2 (g : MGraph) (roots : List (Nat × Nat × Nat)) :
    Except String (List (Nat × Nat)) :=
  step2Go g roots roots []

/-! ## Step 3: module placement (main.rs lines 121-174) -/

/-- `reachable_graph.neighbors_directed(m, Incoming)` where `reachable_graph =
Graph::from_edges(&reachable_nodes)`: `from_edges` inserts the edges in
iteration order, and incoming neighbors are iterated newest-first, so this is
the reversed list of sources of the edges targeting `m`. -/
def incomingNeighbors (rm : List (Nat × Nat)) (m : Nat) : List Nat :=
  ((rm.filter (fun p => p.2 == m)).map (fun p => p.1)).reverse

/-- The dominance filter (main.rs lines 135-143): keep `b` only when no root
`a` of the *unfiltered* list has `(a, b)` in `reachable_chunks`. -/
def dominanceFilter (rc : List (Nat × Nat)) (reachable : List Nat) : List Nat :=
  reachable.filter (fun b => reachable.all (fun a => ¬ rc.contains (a, b)))

/-- The key Step 3 computes for a module: its dominance-filtered incoming
roots, in iteration order (the code never sorts this list). -/
def keyFun (rc rm : List (Nat × Nat)) (m : Nat) : List Nat :=
  dominanceFilter rc (incomingNeighbors rm m)

/-- Mutable state of Step 3: the `bundles` map (keys are the reachable-root
lists) and the chunk graph. -/
structure PlacementSt where
  bundles : List (List Nat × Nat)
  chunk_graph : ChunkGraph
  deriving Repr, DecidableEq

/-- The edge-adding loops of Step 3: for each root `a` of `reachable` with
`a ≠ skipVal`, add `chunk_roots[a].1 → target` (`chunk_roots[a]` panics when
missing).  In the root branch `skipVal` is the asset id (main.rs line 149); in
the shared branch it is the *chunk* id (main.rs line 169) — the comparison
there mixes module and chunk indices, faithfully reproduced. -/
def addEdgesLoop (roots : List (Nat × Nat × Nat)) :
    List Nat → Nat → Nat → ChunkGraph → Except String ChunkGraph
  | [], _, _, cg => .ok cg
  | a :: rest, skipVal, target, cg =>
    if a = skipVal then addEdgesLoop roots rest skipVal target cg
    else
      match List.lookup a roots with
      | none => .error "chunk_roots lookup failed"
      | some (_, gid) =>
        match cg.addEdge gid target with
        | .error e => .error e
        | .ok cg1 => addEdgesLoop roots rest skipVal target cg1

/-- `reachable.iter().map(|a| bundles[&vec![*a]]).collect()` (main.rs line
156); the `HashMap` indexing panics when a singleton key is missing. -/
def sourceBundlesOf (bundles : List (List Nat × Nat)) :
    List Nat → Except String (List Nat)
  | [] => .ok []
  | a :: rest =>
    match List.lookup [a] bundles with
    | none => .error "bundles singleton lookup failed"
    | some bid =>
      match sourceBundlesOf bundles rest with
      | .error e => .error e
      | .ok l => .ok (bid :: l)

/-- The body of the Step-3 loop for one `asset_id` (main.rs lines 128-173). -/
def step3Body (g : MGraph) (roots : List (Nat × Nat × Nat))
    (rc rm : List (Nat × Nat)) (m : Nat) (ps : PlacementSt) :
    Except String PlacementSt :=
  let reachable := dominanceFilter rc (incomingNeighbors rm m)
  match List.lookup m roots with
  | some (cid, _) =>
    let bundles1 :=
      if (List.lookup [m] ps.bundles).isSome then ps.bundles
      else ps.bundles ++ [([m], cid)]
    match addEdgesLoop roots reachable m cid ps.chunk_graph with
    | .error e => .error e
    | .ok cg1 => .ok ⟨bundles1, cg1⟩
  | none =>
    if reachable.isEmpty then .ok ps
    else
      match sourceBundlesOf ps.bundles reachable with
      | .error e => .error e
      | .ok srcs =>
        let tr : Nat × List (List Nat × Nat) × ChunkGraph :=
          match List.lookup reachable ps.bundles with
          | some bid => (bid, ps.bundles, ps.chunk_graph)
          | none =>
            let p := ps.chunk_graph.addNode
              { module_ids := [], size := 0, source_bundles := srcs }
            (p.1, ps.bundles ++ [(reachable, p.1)], p.2)
        match g.getNode m with
        | .error e => .error e
        | .ok asset =>
          match tr.2.2.modifyChunk tr.1 (fun c =>
              { c with module_ids := c.module_ids ++ [m],
                       size := c.size + asset.size }) with
          | .error e => .error e
          | .ok cg2 =>
            match addEdgesLoop roots reachable tr.1 tr.1 cg2 with
            | .error e => .error e
            | .ok cg3 => .ok ⟨tr.2.1, cg3⟩

/-- The Step-3 loop over `g.node_indices()`. -/
def step3Go (g : MGraph) (roots : List (Nat × Nat × Nat))
    (rc rm : List (Nat × Nat)) :
    List Nat → PlacementSt → Except String PlacementSt
  | [], ps => .ok ps
  | m :: rest, ps =>
    match step3Body g roots rc rm m ps with
    | .error e => .error e
    | .ok ps1 => step3Go g roots rc rm rest ps1

/-- Step 3: place every asset, starting from an empty `bundles` map. -/
def step3 (g : MGraph) (roots : List (Nat × Nat × Nat))
    (rc rm : List (Nat × Nat)) (cg : ChunkGraph) : Except String PlacementSt :=
  step3Go g roots rc rm (List.range g.nodes.length) ⟨[], cg⟩

/-! ## `remove_bundle` (main.rs lines 250-263) -/

/-- The nested append loop of `remove_bundle`: for each member asset (outer)
and each source bundle (inner), push the asset and add its size. -/
def removeBundleAssets (g : MGraph) (sources : List Nat) :
    List Nat → ChunkGraph → Except String ChunkGraph
  | [], cg => .ok cg
  | a :: rest, cg =>
    match removeBundleAssetOne g a sources cg with
    | .error e => .error e
    | .ok cg1 => removeBundleAssets g sources rest cg1
where
  /-- Inner loop: append one asset to every source bundle. -/
  removeBundleAssetOne (g : MGraph) (a : Nat) :
      List Nat → ChunkGraph → Except String ChunkGraph
  | [], cg => .ok cg
  | sB :: srest, cg =>
    match g.getNode a with
    | .error e => .error e
    | .ok asset =>
      match cg.modifyChunk sB (fun c =>
          { c with module_ids := c.module_ids ++ [a],
                   size := c.size + asset.size }) with
      | .error e => .error e
      | .ok cg1 => removeBundleAssetOne g a srest cg1

/-- `remove_bundle`: remove the node (`unwrap` of `remove_node`), then append
every member module to each of its source bundles. -/
def removeBundle (g : MGraph) (cg : ChunkGraph) (i : Nat) :
    Except String ChunkGraph :=
  match cg.removeNode i with
  | .error e => .error e
  | .ok (bundle, cg1) =>
    removeBundleAssets g bundle.source_bundles bundle.module_ids cg1

/-! ## Step 4: minimum-size dissolution (main.rs lines 176-184) -/

/-- The Step-4 loop body over the *snapshot* of node indices taken by
`node_indices()` before any removal: index the graph (panics when the index
became invalid through swap-removal), and dissolve undersized shared
chunks.  The minimum size is the hard-coded literal `10`. -/
def step4Go (g : MGraph) : List Nat → ChunkGraph → Except String ChunkGraph
  | [], cg => .ok cg
  | i :: rest, cg =>
    match cg.getChunk i with
    | .error e => .error e
    | .ok c =>
      if 0 < c.source_bundles.length ∧ c.size < 10 then
        match removeBundle g cg i with
        | .error e => .error e
        | .ok cg1 => step4Go g rest cg1
      else step4Go g rest cg

/-- Step 4 = iterate over `0 .. node_count` captured before the loop. -/
def step4 (g : MGraph) (cg : ChunkGraph) : Except String ChunkGraph :=
  step4Go g (List.range cg.nodes.length) cg

/-! ## Step 5: parallel request limit (main.rs lines 186-230) -/

/-- `usize::MAX` on a 64-bit platform; `let limit = usize::MAX` in main.rs
line 187. -/
def usizeMax : Nat := 2 ^ 64 - 1

/-- Stable ascending insertion by chunk size, modelling Rust's stable
`sort_by(|a, b| size(a).cmp(&size(b)))`: an element is inserted after all
earlier elements of equal size. -/
def insertBySize (cg : ChunkGraph) (a : Nat) : List Nat → List Nat
  | [] => [a]
  | b :: rest =>
    if ((cg.nodes.getD a default).size) < ((cg.nodes.getD b default).size) then
      a :: b :: rest
    else b :: insertBySize cg a rest

/-- Stable ascending sort by chunk size. -/
def sortBySize (cg : ChunkGraph) : List Nat → List Nat
  | [] => []
  | a :: rest => insertBySize cg a (sortBySize cg rest)

/-- The inner move loop of Step 5 (main.rs lines 207-214): for each drained
source (outer), re-read `chunk_graph[bundle_id].module_ids` and append every
asset to the chunk `bundles[[source]]`. -/
def step5MoveLoop (g : MGraph) (bundles : List (List Nat × Nat))
    (bundle_id : Nat) : List Nat → ChunkGraph → Except String ChunkGraph
  | [], cg => .ok cg
  | src :: rest, cg =>
    match cg.getChunk bundle_id with
    | .error e => .error e
    | .ok c =>
      match step5MoveAssets g bundles src c.module_ids cg with
      | .error e => .error e
      | .ok cg1 => step5MoveLoop g bundles bundle_id rest cg1
where
  /-- Move every asset of the victim into `bundles[[src]]`. -/
  step5MoveAssets (g : MGraph) (bundles : List (List Nat × Nat)) (src : Nat) :
      List Nat → ChunkGraph → Except String ChunkGraph
  | [], cg => .ok cg
  | a :: arest, cg =>
    match List.lookup [src] bundles with
    | none => .error "bundles singleton lookup failed"
    | some bid =>
      match g.getNode a with
      | .error e => .error e
      | .ok asset =>
        match cg.modifyChunk bid (fun c =>
            { c with module_ids := c.module_ids ++ [a],
                     size := c.size + asset.size }) with
        | .error e => .error e
        | .ok cg1 => step5MoveAssets g bundles src arest cg1

/-- Per-victim processing of Step 5 (main.rs lines 201-227): drain the source
bundles that are siblings in this group, move the member assets into them,
remove the group edge, then dissolve or orphan-remove depending on the
remaining incoming count. -/
def step5Victims (g : MGraph) (bundles : List (List Nat × Nat))
    (group : Nat) (neighbors : List Nat) :
    List Nat → ChunkGraph → Except String ChunkGraph
  | [], cg => .ok cg
  | v :: rest, cg =>
    match cg.getChunk v with
    | .error e => .error e
    | .ok c =>
      let drained := c.source_bundles.filter (fun s => neighbors.contains s)
      let kept := c.source_bundles.filter (fun s => ¬ neighbors.contains s)
      match cg.modifyChunk v (fun c0 => { c0 with source_bundles := kept }) with
      | .error e => .error e
      | .ok cgA =>
        match step5MoveLoop g bundles v drained cgA with
        | .error e => .error e
        | .ok cgB =>
          match cgB.removeEdgeLastOcc group v with
          | .error e => .error e
          | .ok cgC =>
            let count := cgC.incomingCount v
            if count = 1 then
              match removeBundle g cgC v with
              | .error e => .error e
              | .ok cgD => step5Victims g bundles group neighbors rest cgD
            else if count = 0 then
              match cgC.removeNode v with
              | .error e => .error e
              | .ok (_, cgD) => step5Victims g bundles group neighbors rest cgD
            else step5Victims g bundles group neighbors rest cgC

/-- The Step-5 loop over the values of `chunk_roots` (`limit` is the
`let limit = usize::MAX` binding of main.rs line 187): groups whose direct
successor count exceeds the limit get their smallest successors dissolved. -/
def step5Go (g : MGraph) (bundles : List (List Nat × Nat)) (limit : Nat) :
    List (Nat × Nat) → ChunkGraph → Except String ChunkGraph
  | [], cg => .ok cg
  | (bundle_id, group_id) :: rest, cg =>
    if bundle_id ≠ group_id then step5Go g bundles limit rest cg
    else
      let neighbors := cg.outNeighbors group_id
      if limit < neighbors.length then
        let sorted := sortBySize cg neighbors
        let victims := sorted.take (sorted.length - limit)
        match step5Victims g bundles group_id neighbors victims cg with
        | .error e => .error e
        | .ok cg1 => step5Go g bundles limit rest cg1
      else step5Go g bundles limit rest cg

/-- Step 5 over all chunk-root values in map iteration order, with the limit
hard-coded to `usize::MAX`. -/
def step5 (g : MGraph) (bundles : List (List Nat × Nat))
    (roots : List (Nat × Nat × Nat)) (cg : ChunkGraph) :
    Except String ChunkGraph :=
  step5Go g bundles usizeMax (roots.map (fun r => r.2)) cg

/-! ## The full pipeline -/

/-- Everything `main` has computed once Step 2 is done. -/
structure Mid2 where
  d : DiscoverySt
  rm : List (Nat × Nat)
  deriving Repr, DecidableEq

/-- Run Steps 1-2. -/
def runTo2 (g : MGraph) (entries : List Nat) : Except String Mid2 :=
  match step1 g entries with
  | .error e => .error e
  | .ok d =>
    match step2 g d.chunk_roots with
    | .error e => .error e
    | .ok rm => .ok ⟨d, rm⟩

/-- Everything `main` has computed once Step 3 is done. -/
structure Mid3 where
  d : DiscoverySt
  rm : List (Nat × Nat)
  ps : PlacementSt
  deriving Repr, DecidableEq

/-- Run Steps 1-3. -/
def runTo3 (g : MGraph) (entries : List Nat) : Except String Mid3 :=
  match runTo2 g entries with
  | .error e => .error e
  | .ok m2 =>
    match step3 g m2.d.chunk_roots m2.d.reachable_chunks m2.rm
        m2.d.chunk_graph with
    | .error e => .error e
    | .ok ps => .ok ⟨m2.d, m2.rm, ps⟩

/-- Everything `main` has computed once Step 4 is done. -/
structure Mid4 where
  d : DiscoverySt
  rm : List (Nat × Nat)
  bundles : List (List Nat × Nat)
  cg : ChunkGraph
  deriving Repr, DecidableEq

/-- Run Steps 1-4. -/
def runTo4 (g : MGraph) (entries : List Nat) : Except String Mid4 :=
  match runTo3 g entries with
  | .error e => .error e
  | .ok m3 =>
    match step4 g m3.ps.chunk_graph with
    | .error e => .error e
    | .ok cg4 => .ok ⟨m3.d, m3.rm, m3.ps.bundles, cg4⟩

/-- The whole algorithm: the final chunk graph. -/
def run (g : MGraph) (entries : List Nat) : Except String ChunkGraph :=
  match runTo4 g entries with
  | .error e => .error e
  | .ok m4 => step5 g m4.bundles m4.d.chunk_roots m4.cg

/-- The `reachable_chunks` relation the pipeline computes (empty when the
pipeline fails before Step 2 completes). -/
def rcRun (g : MGraph) (entries : List Nat) : List (Nat × Nat) :=
  match runTo2 g entries with
  | .ok m2 => m2.d.reachable_chunks
  | .error _ => []

/-- The `reachable_nodes` relation the pipeline computes (empty when the
pipeline fails before Step 2 completes). -/
def rmRun (g : MGraph) (entries : List Nat) : List (Nat × Nat) :=
  match runTo2 g entries with
  | .ok m2 => m2.rm
  | .error _ => []

/-- The `chunk_roots` map the pipeline computes. -/
def rootsRun (g : MGraph) (entries : List Nat) : List (Nat × Nat × Nat) :=
  match runTo2 g entries with
  | .ok m2 => m2.d.chunk_roots
  | .error _ => []

/-- The placement key Step 3 uses for module `m` (the dominance-filtered
incoming-root list, in iteration order). -/
def keyOfRun (g : MGraph) (entries : List Nat) (m : Nat) : List Nat :=
  keyFun (rcRun g entries) (rmRun g entries) m

/-! ## The literal reference graph (`build_graph`, main.rs lines 265-308) -/

/-- The module graph of `build_graph`: `entry-a.js`(0), `entry-b.js`(1),
`a.js`(2), `b.js`(3), `shared.js`(4), `asynced_a.js`(5), all of size 1000;
edges in insertion order, only `entry-a.js → asynced_a.js` async. -/
def build_graph : MGraph :=
  { nodes :=
      [⟨"entry-a.js", 1000⟩, ⟨"entry-b.js", 1000⟩, ⟨"a.js", 1000⟩,
       ⟨"b.js", 1000⟩, ⟨"shared.js", 1000⟩, ⟨"asynced_a.js", 1000⟩],
    edges :=
      [(0, 2, ⟨false⟩), (0, 5, ⟨true⟩), (0, 4, ⟨false⟩),
       (1, 3, ⟨false⟩), (1, 4, ⟨false⟩)] }

/-- The entry list of `build_graph`. -/
def build_entries : List Nat := [0, 1]

/-- A graph where entry `eb`(1) is also the target of an async dependency
from entry `ea`(0): entries `[0, 1]`, single async edge `0 → 1`. -/
def asyncEntryGraph : MGraph :=
  { nodes := [⟨"ea.js", 1000⟩, ⟨"eb.js", 1000⟩],
    edges := [(0, 1, ⟨true⟩)] }

/-- A graph with two undersized shared chunks: entries `e1`(0), `e2`(1),
`e3`(2) of size 1000; `s12`(3) shared by `e1`,`e2` and `s23`(4) shared by
`e2`,`e3`, both of size 1 (below the minimum 10).  All edges sync. -/
def twoSmallSharedGraph : MGraph :=
  { nodes := [⟨"e1.js", 1000⟩, ⟨"e2.js", 1000⟩, ⟨"e3.js", 1000⟩,
              ⟨"s12.js", 1⟩, ⟨"s23.js", 1⟩],
    edges := [(0, 3, ⟨false⟩), (1, 3, ⟨false⟩),
              (1, 4, ⟨false⟩), (2, 4, ⟨false⟩)] }

/-- A graph where a module's node index precedes the index of the async-split
root that reaches it: entry `e`(0), module `m`(1), async root `r`(2); edges
`e → r` (async) and `r → m` (sync). -/
def lowIndexModuleGraph : MGraph :=
  { nodes := [⟨"e.js", 1000⟩, ⟨"m.js", 1000⟩, ⟨"r.js", 1000⟩],
    edges := [(0, 2, ⟨true⟩), (2, 1, ⟨false⟩)] }

/-- Two entries sharing two modules: entries `e1`(0), `e2`(1); `s1`(2) and
`s2`(3) each imported synchronously by both entries. -/
def twoSharedGraph : MGraph :=
  { nodes := [⟨"e1.js", 1000⟩, ⟨"e2.js", 1000⟩,
              ⟨"s1.js", 1000⟩, ⟨"s2.js", 1000⟩],
    edges := [(0, 2, ⟨false⟩), (0, 3, ⟨false⟩),
              (1, 2, ⟨false⟩), (1, 3, ⟨false⟩)] }

/-! ## General lemmas: the DFS interpreter preserves invariants -/

/-- Invariant preservation for `dfsRun`: if the predicate `P` on the DFS state
survives every handler transition (discovery marking included), it survives a
whole run. -/
theorem dfsRun_inv {S : Type} (nbrs : Nat → List Nat)
    (h : S → DfsEvent → Except String (S × Ctrl)) (P : DfsSt S → Prop)
    (hdisc : ∀ d f st u st1 c, P ⟨d, f, st⟩ → u ∉ d →
      h st (.discover u) = .ok (st1, c) → P ⟨u :: d, f, st1⟩)
    (htree : ∀ d f st u v st1 c, P ⟨d, f, st⟩ →
      h st (.treeEdge u v) = .ok (st1, c) → P ⟨d, f, st1⟩)
    (hback : ∀ d f st u v st1 c, P ⟨d, f, st⟩ →
      h st (.backEdge u v) = .ok (st1, c) → P ⟨d, f, st1⟩)
    (hcross : ∀ d f st u v st1 c, P ⟨d, f, st⟩ →
      h st (.crossForwardEdge u v) = .ok (st1, c) → P ⟨d, f, st1⟩)
    (hfin : ∀ d f st u st1 c, P ⟨d, f, st⟩ →
      h st (.finish u) = .ok (st1, c) → P ⟨d, u :: f, st1⟩) :
    ∀ fuel tasks s s1, P s → dfsRun nbrs h fuel tasks s = .ok s1 → P s1 := by
  intro fuel
  induction fuel with
  | zero =>
    intro tasks s s1 hP hrun
    cases tasks with
    | nil => simp [dfsRun] at hrun; simpa [← hrun] using hP
    | cons t rest => simp [dfsRun] at hrun
  | succ n ih =>
    intro tasks s s1 hP hrun
    obtain ⟨d, f, st⟩ := s
    cases tasks with
    | nil => simp [dfsRun] at hrun; simpa [← hrun] using hP
    | cons t rest =>
      cases t with
      | visit u =>
        by_cases hu : u ∈ d
        · simp only [dfsRun, hu, if_pos] at hrun
          exact ih rest _ s1 hP hrun
        · cases hh : h st (.discover u) with
          | error e => simp [dfsRun, hu, hh] at hrun
          | ok p =>
            obtain ⟨st1, c⟩ := p
            have hP1 : P ⟨u :: d, f, st1⟩ := hdisc d f st u st1 c hP hu hh
            cases c with
            | prune =>
              simp only [dfsRun, hu, if_neg, hh] at hrun
              exact ih _ _ s1 hP1 hrun
            | cont =>
              simp only [dfsRun, hu, if_neg, hh] at hrun
              exact ih _ _ s1 hP1 hrun
      | scan u ns =>
        cases ns with
        | nil =>
          simp only [dfsRun] at hrun
          exact ih rest _ s1 hP hrun
        | cons v vs =>
          by_cases hv : v ∈ d
          · by_cases hvf : v ∈ f
            · cases hh : h st (.crossForwardEdge u v) with
              | error e => simp [dfsRun, hv, hvf, hh] at hrun
              | ok p =>
                obtain ⟨st1, c⟩ := p
                have hP1 : P ⟨d, f, st1⟩ := hcross d f st u v st1 c hP hh
                simp only [dfsRun, hv, hvf, if_pos, hh] at hrun
                exact ih _ _ s1 hP1 hrun
            · cases hh : h st (.backEdge u v) with
              | error e => simp [dfsRun, hv, hvf, hh] at hrun
              | ok p =>
                obtain ⟨st1, c⟩ := p
                have hP1 : P ⟨d, f, st1⟩ := hback d f st u v st1 c hP hh
                simp only [dfsRun, hv, hvf, if_pos, if_neg, hh] at hrun
                exact ih _ _ s1 hP1 hrun
          · cases hh : h st (.treeEdge u v) with
            | error e => simp [dfsRun, hv, hh] at hrun
            | ok p =>
              obtain ⟨st1, c⟩ := p
              have hP1 : P ⟨d, f, st1⟩ := htree d f st u v st1 c hP hh
              cases c with
              | prune =>
                simp only [dfsRun, hv, if_neg, hh] at hrun
                exact ih _ _ s1 hP1 hrun
              | cont =>
                simp only [dfsRun, hv, if_neg, hh] at hrun
                exact ih _ _ s1 hP1 hrun
      | close u =>
        cases hh : h st (.finish u) with
        | error e => simp [dfsRun, hh] at hrun
        | ok p =>
          obtain ⟨st1, c⟩ := p
          cases c with
          | prune => simp [dfsRun, hh] at hrun
          | cont =>
            have hP1 : P ⟨d, u :: f, st1⟩ := hfin d f st u st1 Ctrl.cont hP hh
            simp only [dfsRun, hh] at hrun
            exact ih _ _ s1 hP1 hrun

/-! ## Small lemmas about association lists and list surgery -/

theorem lookup_append_of_some {α β : Type} [BEq α] {l : List (α × β)}
    {k : α} {v : β} (l2 : List (α × β)) :
    List.lookup k l = some v → List.lookup k (l ++ l2) = some v := by
  induction l with
  | nil => intro h; simp [List.lookup] at h
  | cons p t ih =>
    intro h
    obtain ⟨k1, v1⟩ := p
    simp only [List.cons_append, List.lookup] at h ⊢
    cases hk : k == k1 with
    | true => simpa [hk] using h
    | false => simp only [hk] at h ⊢; exact ih h

theorem lookup_append_of_none {α β : Type} [BEq α] {l : List (α × β)}
    {k : α} (l2 : List (α × β)) :
    List.lookup k l = none → List.lookup k (l ++ l2) = List.lookup k l2 := by
  induction l with
  | nil => intro h; simp
  | cons p t ih =>
    intro h
    obtain ⟨k1, v1⟩ := p
    simp only [List.cons_append, List.lookup] at h ⊢
    cases hk : k == k1 with
    | true => simp [hk] at h
    | false => simp only [hk] at h ⊢; exact ih h

theorem mem_insertRep {α β : Type} [DecidableEq α] {l : List (α × β)}
    {k : α} {v : β} {p : α × β} :
    p ∈ insertRep l k v → p ∈ l ∨ p = (k, v) := by
  induction l with
  | nil => intro h; simpa [insertRep] using h
  | cons q t ih =>
    intro h
    obtain ⟨k1, v1⟩ := q
    by_cases hk : k1 = k
    · rw [show insertRep ((k1, v1) :: t) k v = (k, v) :: t by
        simp [insertRep, hk]] at h
      rcases List.mem_cons.mp h with h | h
      · right; exact h
      · left; exact List.mem_cons_of_mem _ h
    · rw [show insertRep ((k1, v1) :: t) k v = (k1, v1) :: insertRep t k v by
        simp [insertRep, hk]] at h
      rcases List.mem_cons.mp h with h | h
      · left; simp [h]
      · rcases ih h with h1 | h1
        · left; exact List.mem_cons_of_mem _ h1
        · right; exact h1

theorem keys_insertRep {α β : Type} [DecidableEq α] (l : List (α × β))
    (k : α) (v : β) :
    (insertRep l k v).map Prod.fst = l.map Prod.fst ∨
      (insertRep l k v).map Prod.fst = l.map Prod.fst ++ [k] := by
  induction l with
  | nil => right; simp [insertRep]
  | cons q t ih =>
    obtain ⟨k1, v1⟩ := q
    by_cases hk : k1 = k
    · left; simp [insertRep, hk]
    · rcases ih with h | h
      · left; simp [insertRep, hk, h]
      · right; simp [insertRep, hk, h]

theorem keys_nodup_insertRep {α β : Type} [DecidableEq α] {l : List (α × β)}
    {k : α} {v : β} (h : (l.map Prod.fst).Nodup) :
    ((insertRep l k v).map Prod.fst).Nodup := by
  induction l with
  | nil => simp [insertRep]
  | cons q t ih =>
    obtain ⟨k1, v1⟩ := q
    by_cases heq : k1 = k
    · subst heq; simpa [insertRep] using h
    · simp only [List.map_cons, List.nodup_cons] at h
      have hrw : insertRep ((k1, v1) :: t) k v = (k1, v1) :: insertRep t k v := by
        simp [insertRep, heq]
      rw [hrw]
      simp only [List.map_cons, List.nodup_cons]
      refine ⟨?_, ih h.2⟩
      intro hmem
      rcases List.mem_map.mp hmem with ⟨p, hp, hfst⟩
      rcases mem_insertRep hp with hp1 | hp1
      · exact h.1 (List.mem_map.mpr ⟨p, hp1, hfst⟩)
      · subst hp1; exact heq hfst.symm

/-- Two sublists of a duplicate-free list with the same members are equal. -/
theorem sublist_eq_of_mem_iff {α : Type} :
    ∀ {l s1 s2 : List α}, s1.Sublist l → s2.Sublist l → l.Nodup →
      (∀ x, x ∈ s1 ↔ x ∈ s2) → s1 = s2 := by
  intro l
  induction l with
  | nil =>
    intro s1 s2 h1 h2 _ _
    rw [List.sublist_nil.mp h1, List.sublist_nil.mp h2]
  | cons a t ih =>
    intro s1 s2 h1 h2 hnd hmem
    have hat : a ∉ t := (List.nodup_cons.mp hnd).1
    have hndt : t.Nodup := (List.nodup_cons.mp hnd).2
    cases h1 with
    | cons _ h1t =>
      cases h2 with
      | cons _ h2t => exact ih h1t h2t hndt hmem
      | cons₂ _ h2t =>
        exfalso
        have : a ∈ s1 := (hmem a).mpr (List.mem_cons_self _ _)
        exact hat (h1t.subset this)
    | cons₂ _ h1t =>
      cases h2 with
      | cons _ h2t =>
        exfalso
        have : a ∈ s2 := (hmem a).mp (List.mem_cons_self _ _)
        exact hat (h2t.subset this)
      | cons₂ _ h2t =>
        congr 1
        refine ih h1t h2t hndt (fun x => ⟨fun hx => ?_, fun hx => ?_⟩)
        · have := (hmem x).mp (List.mem_cons_of_mem _ hx)
          rcases List.mem_cons.mp this with rfl | h
          · exact absurd (h1t.subset hx) hat
          · exact h
        · have := (hmem x).mpr (List.mem_cons_of_mem _ hx)
          rcases List.mem_cons.mp this with rfl | h
          · exact absurd (h2t.subset hx) hat
          · exact h

/-! ## The size invariant and its preservation by the graph operations -/

/-- The size of module `i` as stored in the module graph (0 for an invalid
index; the pipeline only reads sizes of valid indices). -/
def msize (g : MGraph) (i : Nat) : Nat :=
  match g.nodes.get? i with
  | some m => m.size
  | none => 0

theorem msize_of_getNode {g : MGraph} {i : Nat} {m : JsModule}
    (h : g.getNode i = .ok m) : msize g i = m.size := by
  unfold MGraph.getNode at h
  unfold msize
  cases hg : g.nodes.get? i with
  | none => rw [hg] at h; cases h
  | some m1 => rw [hg] at h; cases h; rfl

/-- Spec invariant 4: every chunk's `size` field equals the sum of the sizes
of its member modules. -/
def chunkSizesOk (g : MGraph) (cg : ChunkGraph) : Prop :=
  ∀ c ∈ cg.nodes, c.size = (c.module_ids.map (msize g)).sum

theorem getD_mem_of_lt {l : List Chunk} {i : Nat} (h : i < l.length) :
    l.getD i default ∈ l := by
  rw [List.getD_eq_getElem?_getD, List.getElem?_eq_getElem h]
  exact List.getElem_mem h

theorem sizesOk_addNode {g : MGraph} {cg : ChunkGraph} {c : Chunk}
    (hok : chunkSizesOk g cg)
    (hc : c.size = (c.module_ids.map (msize g)).sum) :
    chunkSizesOk g (cg.addNode c).2 := by
  intro c1 hc1
  rcases List.mem_append.mp hc1 with h | h
  · exact hok c1 h
  · rcases List.mem_singleton.mp h with rfl
    exact hc

theorem sizesOk_from_asset {g : MGraph} {i : Nat} {m : JsModule}
    (h : g.getNode i = .ok m) :
    (Chunk.from_asset i m).size =
      ((Chunk.from_asset i m).module_ids.map (msize g)).sum := by
  simp [Chunk.from_asset, msize_of_getNode h]

/-- Appending a module (with its recorded size) to any chunk preserves the
size invariant. -/
theorem sizesOk_modifyAppend {g : MGraph} {cg cg2 : ChunkGraph} {i a : Nat}
    {asset : JsModule} (hok : chunkSizesOk g cg)
    (hga : g.getNode a = .ok asset)
    (hmod : cg.modifyChunk i (fun c =>
      { c with module_ids := c.module_ids ++ [a],
               size := c.size + asset.size }) = .ok cg2) :
    chunkSizesOk g cg2 := by
  unfold ChunkGraph.modifyChunk at hmod
  by_cases hlt : i < cg.nodes.length
  · rw [if_pos hlt] at hmod
    cases hmod
    intro c1 hc1
    rcases List.mem_or_eq_of_mem_set hc1 with h | h
    · exact hok c1 h
    · subst h
      have hold := hok _ (getD_mem_of_lt hlt)
      show (cg.nodes.getD i default).size + asset.size
          = (((cg.nodes.getD i default).module_ids ++ [a]).map (msize g)).sum
      rw [List.map_append, List.sum_append, ← hold]
      simp [msize_of_getNode hga]
  · rw [if_neg hlt] at hmod; cases hmod

theorem mem_of_mem_removeNode {cg cg2 : ChunkGraph} {i : Nat} {c c1 : Chunk}
    (hrm : cg.removeNode i = .ok (c, cg2)) (h : c1 ∈ cg2.nodes) :
    c1 ∈ cg.nodes := by
  unfold ChunkGraph.removeNode at hrm
  cases hg : cg.nodes.get? i with
  | none => rw [hg] at hrm; cases hrm
  | some c0 =>
    rw [hg] at hrm
    cases hrm
    have hne : 0 < cg.nodes.length := by
      rcases List.get?_eq_some.mp hg with ⟨hi, _⟩
      omega
    have h1 : c1 ∈ cg.nodes.set i (cg.nodes.getD (cg.nodes.length - 1) default) :=
      (List.dropLast_sublist _).subset h
    rcases List.mem_or_eq_of_mem_set h1 with h2 | h2
    · exact h2
    · subst h2
      exact getD_mem_of_lt (by omega)

theorem sizesOk_removeNode {g : MGraph} {cg cg2 : ChunkGraph} {i : Nat}
    {c : Chunk} (hok : chunkSizesOk g cg)
    (hrm : cg.removeNode i = .ok (c, cg2)) : chunkSizesOk g cg2 :=
  fun c1 hc1 => hok c1 (mem_of_mem_removeNode hrm hc1)

/-- Editing only the `source_bundles` field preserves the size invariant. -/
theorem sizesOk_modifySources {g : MGraph} {cg cg2 : ChunkGraph} {i : Nat}
    {srcs : List Nat} (hok : chunkSizesOk g cg)
    (hmod : cg.modifyChunk i (fun c =>
      { c with source_bundles := srcs }) = .ok cg2) :
    chunkSizesOk g cg2 := by
  unfold ChunkGraph.modifyChunk at hmod
  by_cases hlt : i < cg.nodes.length
  · rw [if_pos hlt] at hmod
    cases hmod
    intro c1 hc1
    rcases List.mem_or_eq_of_mem_set hc1 with h | h
    · exact hok c1 h
    · subst h
      have hold := hok _ (getD_mem_of_lt hlt)
      exact hold
  · rw [if_neg hlt] at hmod; cases hmod

theorem sizesOk_removeEdge {g : MGraph} {cg cg2 : ChunkGraph} {a b : Nat}
    (hok : chunkSizesOk g cg) (h : cg.removeEdgeLastOcc a b = .ok cg2) :
    chunkSizesOk g cg2 := by
  unfold ChunkGraph.removeEdgeLastOcc at h
  cases hf : cg.edges.reverse.findIdx? (fun e => e == (a, b)) with
  | none => rw [hf] at h; cases h
  | some k =>
    rw [hf] at h
    cases h
    exact hok

theorem addEdge_nodes {cg cg2 : ChunkGraph} {a b : Nat}
    (h : cg.addEdge a b = .ok cg2) : cg2.nodes = cg.nodes := by
  unfold ChunkGraph.addEdge at h
  split at h
  · cases h; rfl
  · cases h

theorem addEdgesLoop_nodes {roots : List (Nat × Nat × Nat)} :
    ∀ {l : List Nat} {skipVal target : Nat} {cg cg2 : ChunkGraph},
      addEdgesLoop roots l skipVal target cg = .ok cg2 → cg2.nodes = cg.nodes := by
  intro l
  induction l with
  | nil => intro _ _ _ _ h; cases h; rfl
  | cons a rest ih =>
    intro skipVal target cg cg2 h
    unfold addEdgesLoop at h
    by_cases ha : a = skipVal
    · rw [if_pos ha] at h; exact ih h
    · rw [if_neg ha] at h
      cases hl : List.lookup a roots with
      | none => simp only [hl] at h; cases h
      | some p =>
        obtain ⟨p1, p2⟩ := p
        simp only [hl] at h
        cases he : cg.addEdge p2 target with
        | error e => simp only [he] at h; cases h
        | ok cg1 =>
          simp only [he] at h
          rw [ih h, addEdge_nodes he]

theorem sizesOk_of_nodes_eq {g : MGraph} {cg cg2 : ChunkGraph}
    (h : cg2.nodes = cg.nodes) (hok : chunkSizesOk g cg) : chunkSizesOk g cg2 :=
  fun c hc => hok c (by rwa [h] at hc)

theorem seedChunks_sizes {g : MGraph} :
    ∀ {entries : List Nat} {roots : List (Nat × Nat × Nat)} {cg : ChunkGraph}
      {roots1 : List (Nat × Nat × Nat)} {cg1 : ChunkGraph},
      seedChunks g entries (roots, cg) = .ok (roots1, cg1) →
      chunkSizesOk g cg → chunkSizesOk g cg1 := by
  intro entries
  induction entries with
  | nil => intro _ _ _ _ h hok; cases h; exact hok
  | cons e rest ih =>
    intro roots cg roots1 cg1 h hok
    unfold seedChunks at h
    cases hg : g.getNode e with
    | error err => rw [hg] at h; cases h
    | ok m =>
      rw [hg] at h
      exact ih h (sizesOk_addNode hok (sizesOk_from_asset hg))

theorem discoveryHandler_sizes {g : MGraph} {s s1 : DiscoverySt} {ev : DfsEvent}
    {c : Ctrl} (hok : chunkSizesOk g s.chunk_graph)
    (h : discoveryHandler g s ev = .ok (s1, c)) :
    chunkSizesOk g s1.chunk_graph := by
  cases ev with
  | discover u =>
    simp only [discoveryHandler] at h
    cases hl : List.lookup u s.chunk_roots with
    | none => simp only [hl] at h; cases h; exact hok
    | some p => obtain ⟨p1, p2⟩ := p; simp only [hl] at h; cases h; exact hok
  | treeEdge u v =>
    simp only [discoveryHandler] at h
    cases hd : g.findEdgeDep u v with
    | none => simp only [hd] at h; cases h
    | some dep =>
      simp only [hd] at h
      by_cases hasync : dep.is_async = true
      · rw [if_pos hasync] at h
        cases hg : g.getNode v with
        | error e => simp only [hg] at h; cases h
        | ok m =>
          simp only [hg] at h
          cases h
          exact sizesOk_addNode hok (sizesOk_from_asset hg)
      · rw [if_neg hasync] at h; cases h; exact hok
  | finish u =>
    simp only [discoveryHandler] at h
    cases hs : s.stack with
    | nil => simp only [hs] at h; cases h; exact hok
    | cons f t =>
      obtain ⟨m, gid⟩ := f
      simp only [hs] at h
      by_cases hm : m = u
      · rw [if_pos hm] at h; cases h; exact hok
      · rw [if_neg hm] at h; cases h; exact hok
  | backEdge u v => simp only [discoveryHandler] at h; cases h; exact hok
  | crossForwardEdge u v => simp only [discoveryHandler] at h; cases h; exact hok

theorem step1_sizes {g : MGraph} {entries : List Nat} {d : DiscoverySt}
    (h : step1 g entries = .ok d) : chunkSizesOk g d.chunk_graph := by
  unfold step1 at h
  cases hs : seedChunks g entries ([], ⟨[], []⟩) with
  | error e => rw [hs] at h; cases h
  | ok p =>
    obtain ⟨roots, cg⟩ := p
    simp only [hs] at h
    have hcg : chunkSizesOk g cg :=
      seedChunks_sizes hs (by intro c hc; cases hc)
    unfold depthFirstSearch at h
    cases hrun : dfsRun g.outNeighbors (discoveryHandler g)
        (dfsFuel g entries) (entries.map DfsTask.visit)
        ⟨[], [], ⟨roots, [], cg, []⟩⟩ with
    | error e => simp only [hrun] at h; cases h
    | ok sfin =>
      simp only [hrun] at h
      cases h
      exact dfsRun_inv g.outNeighbors (discoveryHandler g)
        (fun s => chunkSizesOk g s.st.chunk_graph)
        (fun dl fl st u st1 c hP hu hh => discoveryHandler_sizes hP hh)
        (fun dl fl st u v st1 c hP hh => discoveryHandler_sizes hP hh)
        (fun dl fl st u v st1 c hP hh => discoveryHandler_sizes hP hh)
        (fun dl fl st u v st1 c hP hh => discoveryHandler_sizes hP hh)
        (fun dl fl st u st1 c hP hh => discoveryHandler_sizes hP hh)
        _ _ _ _ hcg hrun

theorem step3Body_sizes {g : MGraph} {roots : List (Nat × Nat × Nat)}
    {rc rm : List (Nat × Nat)} {m : Nat} {ps ps1 : PlacementSt}
    (hok : chunkSizesOk g ps.chunk_graph)
    (h : step3Body g roots rc rm m ps = .ok ps1) :
    chunkSizesOk g ps1.chunk_graph := by
  unfold step3Body at h
  cases hl : List.lookup m roots with
  | some p =>
    obtain ⟨cid, gid⟩ := p
    simp only [hl] at h
    cases hA : addEdgesLoop roots (dominanceFilter rc (incomingNeighbors rm m))
        m cid ps.chunk_graph with
    | error e => simp only [hA] at h; cases h
    | ok cg1 =>
      simp only [hA] at h
      cases h
      exact sizesOk_of_nodes_eq (addEdgesLoop_nodes hA) hok
  | none =>
    simp only [hl] at h
    by_cases hre : (dominanceFilter rc (incomingNeighbors rm m)).isEmpty = true
    · rw [if_pos hre] at h; cases h; exact hok
    · rw [if_neg hre] at h
      cases hsb : sourceBundlesOf ps.bundles
          (dominanceFilter rc (incomingNeighbors rm m)) with
      | error e => simp only [hsb] at h; cases h
      | ok srcs =>
        simp only [hsb] at h
        cases hg : g.getNode m with
        | error e => simp only [hg] at h; cases h
        | ok asset =>
          simp only [hg] at h
          cases htr : List.lookup (dominanceFilter rc (incomingNeighbors rm m))
              ps.bundles with
          | some bid =>
            simp only [htr] at h
            cases hmod : ps.chunk_graph.modifyChunk bid (fun c =>
                { c with module_ids := c.module_ids ++ [m],
                         size := c.size + asset.size }) with
            | error e => simp only [hmod] at h; cases h
            | ok cg2 =>
              simp only [hmod] at h
              cases hA : addEdgesLoop roots
                  (dominanceFilter rc (incomingNeighbors rm m)) bid bid cg2 with
              | error e => simp only [hA] at h; cases h
              | ok cg3 =>
                simp only [hA] at h
                cases h
                exact sizesOk_of_nodes_eq (addEdgesLoop_nodes hA)
                  (sizesOk_modifyAppend hok hg hmod)
          | none =>
            simp only [htr] at h
            have hok1 : chunkSizesOk g (ps.chunk_graph.addNode
                { module_ids := [], size := 0, source_bundles := srcs }).2 :=
              sizesOk_addNode hok (by simp)
            cases hmod : (ps.chunk_graph.addNode
                { module_ids := [], size := 0,
                  source_bundles := srcs }).2.modifyChunk
                ps.chunk_graph.nodes.length (fun c =>
                { c with module_ids := c.module_ids ++ [m],
                         size := c.size + asset.size }) with
            | error e =>
              simp only [ChunkGraph.addNode] at h hmod
              simp only [hmod] at h
              cases h
            | ok cg2 =>
              simp only [ChunkGraph.addNode] at h hmod
              simp only [hmod] at h
              cases hA : addEdgesLoop roots
                  (dominanceFilter rc (incomingNeighbors rm m))
                  ps.chunk_graph.nodes.length ps.chunk_graph.nodes.length
                  cg2 with
              | error e => simp only [hA] at h; cases h
              | ok cg3 =>
                simp only [hA] at h
                cases h
                refine sizesOk_of_nodes_eq (addEdgesLoop_nodes hA) ?_
                refine sizesOk_modifyAppend ?_ hg hmod
                simpa [ChunkGraph.addNode] using hok1

theorem step3Go_sizes {g : MGraph} {roots : List (Nat × Nat × Nat)}
    {rc rm : List (Nat × Nat)} :
    ∀ {l : List Nat} {ps ps1 : PlacementSt}, chunkSizesOk g ps.chunk_graph →
      step3Go g roots rc rm l ps = .ok ps1 → chunkSizesOk g ps1.chunk_graph := by
  intro l
  induction l with
  | nil => intro ps ps1 hok h; cases h; exact hok
  | cons m rest ih =>
    intro ps ps1 hok h
    unfold step3Go at h
    cases hb : step3Body g roots rc rm m ps with
    | error e => simp only [hb] at h; cases h
    | ok psm =>
      simp only [hb] at h
      exact ih (step3Body_sizes hok hb) h

theorem step3_sizes {g : MGraph} {roots : List (Nat × Nat × Nat)}
    {rc rm : List (Nat × Nat)} {cg : ChunkGraph} {ps1 : PlacementSt}
    (hok : chunkSizesOk g cg) (h : step3 g roots rc rm cg = .ok ps1) :
    chunkSizesOk g ps1.chunk_graph :=
  step3Go_sizes hok h

theorem removeBundleAssetOne_sizes {g : MGraph} {a : Nat} :
    ∀ {srcs : List Nat} {cg cg1 : ChunkGraph}, chunkSizesOk g cg →
      removeBundleAssets.removeBundleAssetOne g a srcs cg = .ok cg1 →
      chunkSizesOk g cg1 := by
  intro srcs
  induction srcs with
  | nil => intro cg cg1 hok h; cases h; exact hok
  | cons sB rest ih =>
    intro cg cg1 hok h
    unfold removeBundleAssets.removeBundleAssetOne at h
    cases hg : g.getNode a with
    | error e => simp only [hg] at h; cases h
    | ok asset =>
      simp only [hg] at h
      cases hmod : cg.modifyChunk sB (fun c =>
          { c with module_ids := c.module_ids ++ [a],
                   size := c.size + asset.size }) with
      | error e => simp only [hmod] at h; cases h
      | ok cg2 =>
        simp only [hmod] at h
        exact ih (sizesOk_modifyAppend hok hg hmod) h

theorem removeBundleAssets_sizes {g : MGraph} {sources : List Nat} :
    ∀ {assets : List Nat} {cg cg1 : ChunkGraph}, chunkSizesOk g cg →
      removeBundleAssets g sources assets cg = .ok cg1 → chunkSizesOk g cg1 := by
  intro assets
  induction assets with
  | nil => intro cg cg1 hok h; cases h; exact hok
  | cons a rest ih =>
    intro cg cg1 hok h
    unfold removeBundleAssets at h
    cases h1 : removeBundleAssets.removeBundleAssetOne g a sources cg with
    | error e => simp only [h1] at h; cases h
    | ok cg2 =>
      simp only [h1] at h
      exact ih (removeBundleAssetOne_sizes hok h1) h

theorem removeBundle_sizes {g : MGraph} {cg cg1 : ChunkGraph} {i : Nat}
    (hok : chunkSizesOk g cg) (h : removeBundle g cg i = .ok cg1) :
    chunkSizesOk g cg1 := by
  unfold removeBundle at h
  cases hrm : cg.removeNode i with
  | error e => simp only [hrm] at h; cases h
  | ok p =>
    obtain ⟨bundle, cg2⟩ := p
    simp only [hrm] at h
    exact removeBundleAssets_sizes (sizesOk_removeNode hok hrm) h

theorem step4Go_sizes {g : MGraph} :
    ∀ {l : List Nat} {cg cg1 : ChunkGraph}, chunkSizesOk g cg →
      step4Go g l cg = .ok cg1 → chunkSizesOk g cg1 := by
  intro l
  induction l with
  | nil => intro cg cg1 hok h; cases h; exact hok
  | cons i rest ih =>
    intro cg cg1 hok h
    unfold step4Go at h
    cases hc : cg.getChunk i with
    | error e => simp only [hc] at h; cases h
    | ok c =>
      simp only [hc] at h
      by_cases hcond : 0 < c.source_bundles.length ∧ c.size < 10
      · rw [if_pos hcond] at h
        cases hrb : removeBundle g cg i with
        | error e => simp only [hrb] at h; cases h
        | ok cg2 =>
          simp only [hrb] at h
          exact ih (removeBundle_sizes hok hrb) h
      · rw [if_neg hcond] at h
        exact ih hok h

theorem step4_sizes {g : MGraph} {cg cg1 : ChunkGraph}
    (hok : chunkSizesOk g cg) (h : step4 g cg = .ok cg1) : chunkSizesOk g cg1 :=
  step4Go_sizes hok h

theorem step5MoveAssets_sizes {g : MGraph} {bundles : List (List Nat × Nat)}
    {src : Nat} :
    ∀ {assets : List Nat} {cg cg1 : ChunkGraph}, chunkSizesOk g cg →
      step5MoveLoop.step5MoveAssets g bundles src assets cg = .ok cg1 →
      chunkSizesOk g cg1 := by
  intro assets
  induction assets with
  | nil => intro cg cg1 hok h; cases h; exact hok
  | cons a rest ih =>
    intro cg cg1 hok h
    unfold step5MoveLoop.step5MoveAssets at h
    cases hl : List.lookup [src] bundles with
    | none => simp only [hl] at h; cases h
    | some bid =>
      simp only [hl] at h
      cases hg : g.getNode a with
      | error e => simp only [hg] at h; cases h
      | ok asset =>
        simp only [hg] at h
        cases hmod : cg.modifyChunk bid (fun c =>
            { c with module_ids := c.module_ids ++ [a],
                     size := c.size + asset.size }) with
        | error e => simp only [hmod] at h; cases h
        | ok cg2 =>
          simp only [hmod] at h
          exact ih (sizesOk_modifyAppend hok hg hmod) h

theorem step5MoveLoop_sizes {g : MGraph} {bundles : List (List Nat × Nat)}
    {bundle_id : Nat} :
    ∀ {srcs : List Nat} {cg cg1 : ChunkGraph}, chunkSizesOk g cg →
      step5MoveLoop g bundles bundle_id srcs cg = .ok cg1 →
      chunkSizesOk g cg1 := by
  intro srcs
  induction srcs with
  | nil => intro cg cg1 hok h; cases h; exact hok
  | cons src rest ih =>
    intro cg cg1 hok h
    unfold step5MoveLoop at h
    cases hc : cg.getChunk bundle_id with
    | error e => simp only [hc] at h; cases h
    | ok c =>
      simp only [hc] at h
      cases hm : step5MoveLoop.step5MoveAssets g bundles src c.module_ids cg with
      | error e => simp only [hm] at h; cases h
      | ok cg2 =>
        simp only [hm] at h
        exact ih (step5MoveAssets_sizes hok hm) h

theorem step5Victims_sizes {g : MGraph} {bundles : List (List Nat × Nat)}
    {group : Nat} {neighbors : List Nat} :
    ∀ {victims : List Nat} {cg cg1 : ChunkGraph}, chunkSizesOk g cg →
      step5Victims g bundles group neighbors victims cg = .ok cg1 →
      chunkSizesOk g cg1 := by
  intro victims
  induction victims with
  | nil => intro cg cg1 hok h; cases h; exact hok
  | cons v rest ih =>
    intro cg cg1 hok h
    unfold step5Victims at h
    cases hc : cg.getChunk v with
    | error e => simp only [hc] at h; cases h
    | ok c =>
      simp only [hc] at h
      cases hmod : cg.modifyChunk v (fun c0 =>
          { c0 with source_bundles :=
              c.source_bundles.filter (fun s => ¬ neighbors.contains s) }) with
      | error e => simp only [hmod] at h; cases h
      | ok cgA =>
        simp only [hmod] at h
        have hokA : chunkSizesOk g cgA := sizesOk_modifySources hok hmod
        cases hmv : step5MoveLoop g bundles v
            (c.source_bundles.filter (fun s => neighbors.contains s)) cgA with
        | error e => simp only [hmv] at h; cases h
        | ok cgB =>
          simp only [hmv] at h
          have hokB : chunkSizesOk g cgB := step5MoveLoop_sizes hokA hmv
          cases hre : cgB.removeEdgeLastOcc group v with
          | error e => simp only [hre] at h; cases h
          | ok cgC =>
            simp only [hre] at h
            have hokC : chunkSizesOk g cgC := sizesOk_removeEdge hokB hre
            by_cases h1 : cgC.incomingCount v = 1
            · rw [if_pos h1] at h
              cases hrb : removeBundle g cgC v with
              | error e => simp only [hrb] at h; cases h
              | ok cgD =>
                simp only [hrb] at h
                exact ih (removeBundle_sizes hokC hrb) h
            · rw [if_neg h1] at h
              by_cases h0 : cgC.incomingCount v = 0
              · rw [if_pos h0] at h
                cases hrn : cgC.removeNode v with
                | error e => simp only [hrn] at h; cases h
                | ok p =>
                  obtain ⟨c0, cgD⟩ := p
                  simp only [hrn] at h
                  exact ih (sizesOk_removeNode hokC hrn) h
              · rw [if_neg h0] at h
                exact ih hokC h

theorem step5Go_sizes {g : MGraph} {bundles : List (List Nat × Nat)}
    {limit : Nat} :
    ∀ {l : List (Nat × Nat)} {cg cg1 : ChunkGraph}, chunkSizesOk g cg →
      step5Go g bundles limit l cg = .ok cg1 → chunkSizesOk g cg1 := by
  intro l
  induction l with
  | nil => intro cg cg1 hok h; cases h; exact hok
  | cons p rest ih =>
    intro cg cg1 hok h
    obtain ⟨bundle_id, group_id⟩ := p
    unfold step5Go at h
    by_cases hne : bundle_id ≠ group_id
    · rw [if_pos hne] at h
      exact ih hok h
    · rw [if_neg hne] at h
      by_cases hgt : limit < (cg.outNeighbors group_id).length
      · rw [if_pos hgt] at h
        cases hv : step5Victims g bundles group_id (cg.outNeighbors group_id)
            ((sortBySize cg (cg.outNeighbors group_id)).take
              ((sortBySize cg (cg.outNeighbors group_id)).length - limit))
            cg with
        | error e => simp only [hv] at h; cases h
        | ok cg2 =>
          simp only [hv] at h
          exact ih (step5Victims_sizes hok hv) h
      · rw [if_neg hgt] at h
        exact ih hok h

theorem step5_sizes {g : MGraph} {bundles : List (List Nat × Nat)}
    {roots : List (Nat × Nat × Nat)} {cg cg1 : ChunkGraph}
    (hok : chunkSizesOk g cg) (h : step5 g bundles roots cg = .ok cg1) :
    chunkSizesOk g cg1 :=
  step5Go_sizes hok h

/-! ## Step 5 is the identity whenever the successor counts fit in `usize` -/

theorem outNeighbors_length_le (cg : ChunkGraph) (u : Nat) :
    (cg.outNeighbors u).length ≤ cg.edges.length := by
  unfold ChunkGraph.outNeighbors
  simp only [List.length_reverse, List.length_map]
  exact List.length_filter_le _ _

theorem step5Go_noop {g : MGraph} {bundles : List (List Nat × Nat)}
    {limit : Nat} :
    ∀ {l : List (Nat × Nat)} {cg : ChunkGraph}, cg.edges.length ≤ limit →
      step5Go g bundles limit l cg = .ok cg := by
  intro l
  induction l with
  | nil => intro cg _; rfl
  | cons p rest ih =>
    intro cg hb
    obtain ⟨bundle_id, group_id⟩ := p
    unfold step5Go
    by_cases hne : bundle_id ≠ group_id
    · rw [if_pos hne]
      exact ih hb
    · rw [if_neg hne]
      have hlen : ¬ limit < (cg.outNeighbors group_id).length := by
        have := outNeighbors_length_le cg group_id
        omega
      rw [if_neg hlen]
      exact ih hb

/-! ## Reference outputs on the literal graph -/

/-- The chunk graph the algorithm actually produces on `build_graph`:
chunk 0 = `[entry-a, a]`, chunk 1 = `[entry-b, b]`, chunk 2 = `[asynced_a]`
(no incoming edge), chunk 3 = `[shared]` with `source_bundles = [1, 0]` and
edges `1 → 3`, `0 → 3`. -/
def refChunkGraph : ChunkGraph :=
  { nodes := [⟨[0, 2], 2000, []⟩, ⟨[1, 3], 2000, []⟩,
              ⟨[5], 1000, []⟩, ⟨[4], 1000, [1, 0]⟩],
    edges := [(1, 3), (0, 3)] }

/-- The full pipeline state after Step 4 on `build_graph`. -/
def refMid4 : Mid4 :=
  { d := { chunk_roots := [(0, 0, 0), (1, 1, 1), (5, 2, 2)],
           reachable_chunks := [(0, 5)],
           chunk_graph :=
             { nodes := [⟨[0], 1000, []⟩, ⟨[1], 1000, []⟩, ⟨[5], 1000, []⟩],
               edges := [] },
           stack := [] },
    rm := [(0, 4), (0, 2), (1, 4), (1, 3)],
    bundles := [([0], 0), ([1], 1), ([1, 0], 3), ([5], 2)],
    cg := refChunkGraph }

theorem runTo4_build_eq : runTo4 build_graph build_entries = .ok refMid4 := by
  rfl

theorem run_build_eq : run build_graph build_entries = .ok refChunkGraph := by
  rfl

/-! ## Inversion of the pipeline wrappers -/

theorem runTo2_parts {g : MGraph} {entries : List Nat} {m2 : Mid2}
    (h : runTo2 g entries = .ok m2) :
    step1 g entries = .ok m2.d ∧ step2 g m2.d.chunk_roots = .ok m2.rm := by
  unfold runTo2 at h
  cases h1 : step1 g entries with
  | error e => simp only [h1] at h; cases h
  | ok d =>
    simp only [h1] at h
    cases h2 : step2 g d.chunk_roots with
    | error e => simp only [h2] at h; cases h
    | ok rm =>
      simp only [h2] at h
      cases h
      exact ⟨rfl, h2⟩

theorem runTo3_parts {g : MGraph} {entries : List Nat} {m3 : Mid3}
    (h : runTo3 g entries = .ok m3) :
    runTo2 g entries = .ok ⟨m3.d, m3.rm⟩ ∧
      step3 g m3.d.chunk_roots m3.d.reachable_chunks m3.rm m3.d.chunk_graph =
        .ok m3.ps := by
  unfold runTo3 at h
  cases h1 : runTo2 g entries with
  | error e => simp only [h1] at h; cases h
  | ok m2 =>
    simp only [h1] at h
    cases h2 : step3 g m2.d.chunk_roots m2.d.reachable_chunks m2.rm
        m2.d.chunk_graph with
    | error e => simp only [h2] at h; cases h
    | ok ps =>
      simp only [h2] at h
      cases h
      exact ⟨rfl, h2⟩

theorem runTo4_parts {g : MGraph} {entries : List Nat} {m4 : Mid4}
    (h : runTo4 g entries = .ok m4) :
    ∃ m3 : Mid3, runTo3 g entries = .ok m3 ∧ m3.d = m4.d ∧ m3.rm = m4.rm ∧
      m3.ps.bundles = m4.bundles ∧ step4 g m3.ps.chunk_graph = .ok m4.cg := by
  unfold runTo4 at h
  cases h1 : runTo3 g entries with
  | error e => simp only [h1] at h; cases h
  | ok m3 =>
    simp only [h1] at h
    cases h2 : step4 g m3.ps.chunk_graph with
    | error e => simp only [h2] at h; cases h
    | ok cg4 =>
      simp only [h2] at h
      cases h
      exact ⟨m3, rfl, rfl, rfl, rfl, h2⟩

theorem run_parts {g : MGraph} {entries : List Nat} {cgF : ChunkGraph}
    (h : run g entries = .ok cgF) :
    ∃ m4 : Mid4, runTo4 g entries = .ok m4 ∧
      step5 g m4.bundles m4.d.chunk_roots m4.cg = .ok cgF := by
  unfold run at h
  cases h1 : runTo4 g entries with
  | error e => simp only [h1] at h; cases h
  | ok m4 =>
    simp only [h1] at h
    exact ⟨m4, rfl, h⟩

/-! ## The dominance filter never keeps a dominated pair -/

theorem dominanceFilter_excludes {rc : List (Nat × Nat)} {l : List Nat}
    {a b : Nat} (hab : (a, b) ∈ rc) (ha : a ∈ dominanceFilter rc l) :
    b ∉ dominanceFilter rc l := by
  intro hb
  simp only [dominanceFilter, List.mem_filter, List.all_eq_true,
    decide_eq_true_eq] at ha hb
  exact hb.2 a ha.1 (by simpa using hab)

/-! ## Step 2 never records a chunk root as a target -/

/-- A `depth_first_search` call preserves any predicate on the visitor state
that each handler transition preserves. -/
theorem depthFirstSearch_inv {S : Type} (g : MGraph) (starts : List Nat)
    (h : S → DfsEvent → Except String (S × Ctrl)) (P : S → Prop)
    (hstep : ∀ s ev s1 c, P s → h s ev = .ok (s1, c) → P s1) :
    ∀ {s0 s1 : S}, P s0 → depthFirstSearch g starts h s0 = .ok s1 → P s1 := by
  intro s0 s1 hP hrun
  unfold depthFirstSearch at hrun
  cases hr : dfsRun g.outNeighbors h (dfsFuel g starts) (starts.map .visit)
      ⟨[], [], s0⟩ with
  | error e => rw [hr] at hrun; cases hrun
  | ok sfin =>
    rw [hr] at hrun
    cases hrun
    exact dfsRun_inv g.outNeighbors h (fun st => P st.st)
      (fun d f st u st1 c hPs hu hh => hstep st _ st1 c hPs hh)
      (fun d f st u v st1 c hPs hh => hstep st _ st1 c hPs hh)
      (fun d f st u v st1 c hPs hh => hstep st _ st1 c hPs hh)
      (fun d f st u v st1 c hPs hh => hstep st _ st1 c hPs hh)
      (fun d f st u st1 c hPs hh => hstep st _ st1 c hPs hh)
      _ _ _ _ hP hr

theorem reachHandler_targets {roots : List (Nat × Nat × Nat)} {root : Nat}
    {rm rm1 : List (Nat × Nat)} {ev : DfsEvent} {c : Ctrl}
    (hP : ∀ p ∈ rm, List.lookup p.2 roots = none)
    (h : reachHandler roots root rm ev = .ok (rm1, c)) :
    ∀ p ∈ rm1, List.lookup p.2 roots = none := by
  cases ev with
  | discover n =>
    simp only [reachHandler] at h
    by_cases hn : n = root
    · rw [if_pos hn] at h; cases h; exact hP
    · rw [if_neg hn] at h
      by_cases hr : (List.lookup n roots).isSome = true
      · rw [if_pos hr] at h; cases h; exact hP
      · rw [if_neg hr] at h
        cases h
        intro p hp
        rcases List.mem_append.mp hp with hp1 | hp1
        · exact hP p hp1
        · rcases List.mem_singleton.mp hp1 with rfl
          cases hlk : List.lookup n roots with
          | none => rfl
          | some v => rw [hlk] at hr; simp at hr
  | treeEdge u v => simp only [reachHandler] at h; cases h; exact hP
  | backEdge u v => simp only [reachHandler] at h; cases h; exact hP
  | crossForwardEdge u v => simp only [reachHandler] at h; cases h; exact hP
  | finish u => simp only [reachHandler] at h; cases h; exact hP

theorem step2Go_targets {g : MGraph} {roots : List (Nat × Nat × Nat)} :
    ∀ {l : List (Nat × Nat × Nat)} {rm rm1 : List (Nat × Nat)},
      (∀ p ∈ rm, List.lookup p.2 roots = none) →
      step2Go g roots l rm = .ok rm1 →
      ∀ p ∈ rm1, List.lookup p.2 roots = none := by
  intro l
  induction l with
  | nil => intro rm rm1 hP h; cases h; exact hP
  | cons q rest ih =>
    intro rm rm1 hP h
    obtain ⟨root, _⟩ := q
    unfold step2Go at h
    cases hd : depthFirstSearch g [root] (reachHandler roots root) rm with
    | error e => simp only [hd] at h; cases h
    | ok rm2 =>
      simp only [hd] at h
      have hP2 : ∀ p ∈ rm2, List.lookup p.2 roots = none :=
        depthFirstSearch_inv g [root] (reachHandler roots root)
          (fun st => ∀ p ∈ st, List.lookup p.2 roots = none)
          (fun s ev s1 c hPs hh => reachHandler_targets hPs hh) hP hd
      exact ih hP2 h

/-- Helper: with no chunk roots and an empty reachability relation, Step 3
leaves its state untouched. -/
theorem step3Go_no_roots {g : MGraph} {rc : List (Nat × Nat)} :
    ∀ (l : List Nat) (ps : PlacementSt), step3Go g [] rc [] l ps = .ok ps := by
  intro l
  induction l with
  | nil => intro ps; rfl
  | cons m rest ih =>
    intro ps
    have hb : step3Body g [] rc [] m ps = .ok ps := rfl
    unfold step3Go
    simp only [hb]
    exact ih ps

/-! ## Claim theorems -/

/-- C1 (amended): on the literal reference graph (module sizes 1000, minimum
shared-chunk size 10, parallel request limit unbounded) the algorithm produces
exactly four chunks — C1 = [entry-a, a] of size 2000 (entry chunk),
C2 = [entry-b, b] of size 2000 (entry chunk), C3 = [asynced_a] of size 1000
(async-split entry chunk), C4 = [shared] of size 1000 with source chunks
{C2, C1} — and exactly the chunk-graph edges C2→C4 and C1→C4.  There is *no*
edge C1→C3: the async-split chunk has no incoming edge in the produced
graph. -/
theorem claim1_theorem : run build_graph build_entries = .ok refChunkGraph :=
  run_build_eq

/-- C1 counterexample: the claim as stated additionally requires the
chunk-graph edge C1→C3 (node 0 → node 2); the algorithm's output contains no
such edge. -/
theorem claim1_counterexample :
    ¬ ∃ cg : ChunkGraph, run build_graph build_entries = .ok cg ∧
      (0, 2) ∈ cg.edges := by
  rintro ⟨cg, hrun, hedge⟩
  rw [run_build_eq] at hrun
  cases hrun
  exact (by decide : ¬ ((0, 2) ∈ refChunkGraph.edges)) hedge

/-- C2 (amended): in the Step-2 reachability traversal the prune check
precedes the insertion, so a chunk root is *never* recorded as a target in
`ReachableModules`: every pair `(r, n)` the pipeline records has `n` outside
the `chunk_roots` map. -/
theorem claim2_theorem (g : MGraph) (entries : List Nat) (r n : Nat)
    (hmem : (r, n) ∈ rmRun g entries) :
    List.lookup n (rootsRun g entries) = none := by
  unfold rmRun rootsRun at *
  cases h2 : runTo2 g entries with
  | error e => rw [h2] at hmem; simp at hmem
  | ok m2 =>
    rw [h2] at hmem
    have hmem2 : (r, n) ∈ m2.rm := hmem
    have hparts := runTo2_parts h2
    show List.lookup n m2.d.chunk_roots = none
    exact step2Go_targets (by intro p hp; cases hp) hparts.2 (r, n) hmem2

/-- C2 witness: on the reference graph `(0, 4)` (entry-a reaches shared) is
recorded, and shared (module 4) is indeed not a chunk root. -/
theorem claim2_witness :
    List.lookup 4 (rootsRun build_graph build_entries) = none :=
  claim2_theorem build_graph build_entries 0 4 (by decide)

/-- C2 counterexample: on the reference graph the async-split root
asynced_a (module 5) is a chunk root reached directly from the root
entry-a (module 0) — it is even a direct neighbor — yet `(0, 5)` is *not* in
`ReachableModules`, contradicting the claim that the pair is inserted before
the prune check. -/
theorem claim2_counterexample :
    (List.lookup 5 (rootsRun build_graph build_entries)).isSome = true ∧
    5 ∈ build_graph.outNeighbors 0 ∧
    (0, 5) ∉ rmRun build_graph build_entries := by decide

/-- C5: if `(a, b)` is recorded in `ReachableChunks` (root `a` async-imports
root `b` directly or transitively), then no placement key (the
dominance-filtered reachable-root list Step 3 uses) contains both `a` and
`b`. -/
theorem claim5_theorem (g : MGraph) (entries : List Nat) (m a b : Nat)
    (hab : (a, b) ∈ rcRun g entries) (ha : a ∈ keyOfRun g entries m) :
    b ∉ keyOfRun g entries m := by
  unfold keyOfRun keyFun at *
  exact dominanceFilter_excludes hab ha

/-- C5 witness: on the reference graph `(0, 5)` is in `ReachableChunks` and
`0` is in the key of module 4 (shared), so `5` is excluded from that key. -/
theorem claim5_witness : 5 ∉ keyOfRun build_graph build_entries 4 :=
  claim5_theorem build_graph build_entries 4 0 5 (by decide) (by decide)

/-- C6: after Steps 1-2, after Step 3 (placement), after Step 4 (minimum-size
dissolution, pass 5A) and after Step 5 (parallel-request limit, pass 5B),
every chunk's `size` equals the sum of the sizes of the modules in its
`module_ids` — including after dissolutions append a dissolved chunk's
members to its source chunks. -/
theorem claim6_theorem (g : MGraph) (entries : List Nat) :
    (∀ m2 : Mid2, runTo2 g entries = .ok m2 →
      chunkSizesOk g m2.d.chunk_graph) ∧
    (∀ m3 : Mid3, runTo3 g entries = .ok m3 →
      chunkSizesOk g m3.ps.chunk_graph) ∧
    (∀ m4 : Mid4, runTo4 g entries = .ok m4 → chunkSizesOk g m4.cg) ∧
    (∀ cgF : ChunkGraph, run g entries = .ok cgF → chunkSizesOk g cgF) := by
  have key2 : ∀ m2 : Mid2, runTo2 g entries = .ok m2 →
      chunkSizesOk g m2.d.chunk_graph := by
    intro m2 h
    exact step1_sizes (runTo2_parts h).1
  have key3 : ∀ m3 : Mid3, runTo3 g entries = .ok m3 →
      chunkSizesOk g m3.ps.chunk_graph := by
    intro m3 h
    obtain ⟨h2, h3⟩ := runTo3_parts h
    exact step3_sizes (key2 _ h2) h3
  have key4 : ∀ m4 : Mid4, runTo4 g entries = .ok m4 →
      chunkSizesOk g m4.cg := by
    intro m4 h
    obtain ⟨m3, h3, _, _, _, h4⟩ := runTo4_parts h
    exact step4_sizes (key3 _ h3) h4
  refine ⟨key2, key3, key4, ?_⟩
  intro cgF h
  obtain ⟨m4, h4, h5⟩ := run_parts h
  exact step5_sizes (key4 _ h4) h5

/-- C6 witness: the final chunk graph of the reference run satisfies the size
invariant. -/
theorem claim6_witness : chunkSizesOk build_graph refChunkGraph :=
  (claim6_theorem build_graph build_entries).2.2.2 refChunkGraph (by rfl)

/-- C7: on a graph with two undersized shared chunks (`twoSmallSharedGraph`:
three entries, `s12` shared by e1/e2 and `s23` shared by e2/e3, both of size
1 < 10), Step 3 completes and its chunk graph contains exactly two undersized
shared chunks, but the full run aborts with an index-out-of-bounds panic:
Step 4 iterates the index snapshot while `remove_node` swap-removes, so after
dissolving the first chunk the loop indexes a no-longer-existing slot instead
of dissolving the second one. -/
theorem claim7_theorem :
    ((runTo3 twoSmallSharedGraph [0, 1, 2]).map (fun m3 =>
        (m3.ps.chunk_graph.nodes.filter
          (fun c => 0 < c.source_bundles.length ∧ c.size < 10)).length)
      = .ok 2) ∧
    run twoSmallSharedGraph [0, 1, 2] =
      .error "chunk index out of bounds" := by
  exact ⟨by rfl, by rfl⟩

/-- C9: with an empty entry list the algorithm runs without error on *every*
module graph and produces the empty chunk graph (no nodes, no edges). -/
theorem claim9_theorem (g : MGraph) : run g [] = .ok ⟨[], []⟩ := by
  have h1 : step1 g [] = .ok ⟨[], [], ⟨[], []⟩, []⟩ := rfl
  have h3 : step3 g [] [] [] ⟨[], []⟩ = .ok ⟨[], ⟨[], []⟩⟩ :=
    step3Go_no_roots _ _
  unfold run runTo4 runTo3 runTo2
  simp only [h1]
  simp only [show step2 g [] = .ok ([] : List (Nat × Nat)) from rfl]
  simp only [h3]
  rfl

/-- C10: the parallel-request limit is hard-coded to `usize::MAX`, so Step 5
never modifies the chunk graph: whenever the pipeline reaches Step 5 (and the
chunk graph's edge count fits in a `usize`, as any Rust-representable graph
does), the final output equals the chunk graph exactly as it stands after
Step 4. -/
theorem claim10_theorem (g : MGraph) (entries : List Nat) (m4 : Mid4)
    (h4 : runTo4 g entries = .ok m4) (hb : m4.cg.edges.length ≤ usizeMax) :
    run g entries = .ok m4.cg := by
  unfold run
  simp only [h4]
  unfold step5
  exact step5Go_noop hb

/-- C10 witness: on the reference graph the final output is the Step-4
graph. -/
theorem claim10_witness : run build_graph build_entries = .ok refMid4.cg :=
  claim10_theorem build_graph build_entries refMid4 (by rfl) (by decide)

/-! ## Entry chunks: existence and survival (claim C4) -/

/-- Some chunk of the graph starts with module `e` and has no source
chunks (spec: "a chunk exists whose module list begins with e; this chunk has
empty source_chunks"). -/
def entryChunkOk (e : Nat) (cg : ChunkGraph) : Prop :=
  ∃ j c, cg.nodes.get? j = some c ∧ c.module_ids.head? = some e ∧
    c.source_bundles = []

theorem head?_append_of_some {l l2 : List Nat} {e : Nat}
    (h : l.head? = some e) : (l ++ l2).head? = some e := by
  cases l with
  | nil => cases h
  | cons x t => simpa using h

theorem entry_addNode {e : Nat} {cg : ChunkGraph} {c : Chunk}
    (hE : entryChunkOk e cg) : entryChunkOk e (cg.addNode c).2 := by
  obtain ⟨j, c0, hj, hh, hs⟩ := hE
  have hjl : j < cg.nodes.length := (List.get?_eq_some.mp hj).1
  exact ⟨j, c0, by
    show (cg.nodes ++ [c]).get? j = some c0
    rw [List.get?_append hjl]; exact hj, hh, hs⟩

/-- A new chunk whose module list is `[e]` and source list empty witnesses
`entryChunkOk e` after `add_node`. -/
theorem entry_addNode_self {e : Nat} {cg : ChunkGraph} {c : Chunk}
    (hh : c.module_ids.head? = some e) (hs : c.source_bundles = []) :
    entryChunkOk e (cg.addNode c).2 := by
  refine ⟨cg.nodes.length, c, ?_, hh, hs⟩
  show (cg.nodes ++ [c]).get? cg.nodes.length = some c
  rw [List.get?_append_right (le_refl _)]
  simp

theorem entry_of_nodes_eq {e : Nat} {cg cg2 : ChunkGraph}
    (h : cg2.nodes = cg.nodes) (hE : entryChunkOk e cg) :
    entryChunkOk e cg2 := by
  obtain ⟨j, c0, hj, hh, hs⟩ := hE
  exact ⟨j, c0, by rw [h]; exact hj, hh, hs⟩

/-- Appending a module at the end of any chunk keeps every entry-chunk
witness intact. -/
theorem entry_modifyAppend {e : Nat} {cg cg2 : ChunkGraph} {i a : Nat}
    {f : Chunk → Chunk}
    (hE : entryChunkOk e cg) (hmod : cg.modifyChunk i f = .ok cg2)
    (hf : ∀ c, (f c).module_ids = c.module_ids ++ [a] ∧
      (f c).source_bundles = c.source_bundles) :
    entryChunkOk e cg2 := by
  unfold ChunkGraph.modifyChunk at hmod
  by_cases hlt : i < cg.nodes.length
  · rw [if_pos hlt] at hmod
    cases hmod
    obtain ⟨j, c0, hj, hh, hs⟩ := hE
    by_cases hij : i = j
    · subst hij
      refine ⟨i, f c0, ?_, ?_, ?_⟩
      · show (cg.nodes.set i (f (cg.nodes.getD i default))).get? i
            = some (f c0)
        have : cg.nodes.getD i default = c0 := by
          rw [List.getD_eq_getElem?_getD, ← List.get?_eq_getElem?, hj]; rfl
        rw [this]
        exact List.get?_set_eq_of_lt _ hlt
      · rw [(hf c0).1]; exact head?_append_of_some hh
      · rw [(hf c0).2]; exact hs
    · exact ⟨j, c0, by
        show (cg.nodes.set i _).get? j = some c0
        rw [List.get?_set_ne _ _ hij]; exact hj, hh, hs⟩
  · rw [if_neg hlt] at hmod; cases hmod

theorem get?_dropLast {α : Type} (l : List α) (j : Nat)
    (h : j < l.length - 1) : l.dropLast.get? j = l.get? j := by
  rw [List.dropLast_eq_take]
  exact List.get?_take h

/-- Removing a chunk with a non-empty source list (by swap-removal) keeps
every entry-chunk witness: the witness has an empty source list, hence lives
at a different index, and the index renaming keeps its value in the graph. -/
theorem entry_removeNode {e : Nat} {cg cg2 : ChunkGraph} {i : Nat} {c : Chunk}
    (hE : entryChunkOk e cg) (hrm : cg.removeNode i = .ok (c, cg2))
    (hsrc : c.source_bundles ≠ []) : entryChunkOk e cg2 := by
  unfold ChunkGraph.removeNode at hrm
  cases hg : cg.nodes.get? i with
  | none => rw [hg] at hrm; cases hrm
  | some c1 =>
    rw [hg] at hrm
    cases hrm
    obtain ⟨j, c0, hj, hh, hs⟩ := hE
    have hjl : j < cg.nodes.length := (List.get?_eq_some.mp hj).1
    have hil : i < cg.nodes.length := (List.get?_eq_some.mp hg).1
    have hij : i ≠ j := by
      intro hij
      subst hij
      rw [hj] at hg
      cases hg
      exact hsrc hs
    by_cases hjlast : j = cg.nodes.length - 1
    · -- the witness is the swapped node: it ends up at index i
      subst hjlast
      have hilast : i < cg.nodes.length - 1 := by omega
      refine ⟨i, c0, ?_, hh, hs⟩
      show ((cg.nodes.set i
          (cg.nodes.getD (cg.nodes.length - 1) default)).dropLast).get? i
          = some c0
      rw [get?_dropLast _ _ (by simpa using hilast)]
      have hgd : cg.nodes.getD (cg.nodes.length - 1) default = c0 := by
        rw [List.getD_eq_getElem?_getD, ← List.get?_eq_getElem?, hj]; rfl
      rw [hgd]
      exact List.get?_set_eq_of_lt _ (by omega)
    · -- the witness stays at index j < last
      have hjlt : j < cg.nodes.length - 1 := by omega
      refine ⟨j, c0, ?_, hh, hs⟩
      show ((cg.nodes.set i _).dropLast).get? j = some c0
      rw [get?_dropLast _ _ (by simpa using hjlt)]
      rw [List.get?_set_ne _ _ hij]
      exact hj

theorem seedChunks_entry_mono {g : MGraph} {e : Nat} :
    ∀ {entries : List Nat} {roots : List (Nat × Nat × Nat)} {cg : ChunkGraph}
      {roots1 : List (Nat × Nat × Nat)} {cg1 : ChunkGraph},
      seedChunks g entries (roots, cg) = .ok (roots1, cg1) →
      entryChunkOk e cg → entryChunkOk e cg1 := by
  intro entries
  induction entries with
  | nil => intro _ _ _ _ h hE; cases h; exact hE
  | cons e1 rest ih =>
    intro roots cg roots1 cg1 h hE
    unfold seedChunks at h
    cases hg : g.getNode e1 with
    | error err => rw [hg] at h; cases h
    | ok m =>
      rw [hg] at h
      exact ih h (entry_addNode hE)

theorem seedChunks_entry {g : MGraph} :
    ∀ {entries : List Nat} {roots : List (Nat × Nat × Nat)} {cg : ChunkGraph}
      {roots1 : List (Nat × Nat × Nat)} {cg1 : ChunkGraph},
      seedChunks g entries (roots, cg) = .ok (roots1, cg1) →
      ∀ e ∈ entries, entryChunkOk e cg1 := by
  intro entries
  induction entries with
  | nil => intro _ _ _ _ _ e he; cases he
  | cons e1 rest ih =>
    intro roots cg roots1 cg1 h e he
    unfold seedChunks at h
    cases hg : g.getNode e1 with
    | error err => rw [hg] at h; cases h
    | ok m =>
      rw [hg] at h
      rcases List.mem_cons.mp he with rfl | he1
      · exact seedChunks_entry_mono h
          (entry_addNode_self (by simp [Chunk.from_asset]) rfl)
      · exact ih h e he1

theorem discoveryHandler_entry {g : MGraph} {e : Nat} {s s1 : DiscoverySt}
    {ev : DfsEvent} {c : Ctrl} (hE : entryChunkOk e s.chunk_graph)
    (h : discoveryHandler g s ev = .ok (s1, c)) :
    entryChunkOk e s1.chunk_graph := by
  cases ev with
  | discover u =>
    simp only [discoveryHandler] at h
    cases hl : List.lookup u s.chunk_roots with
    | none => simp only [hl] at h; cases h; exact hE
    | some p => obtain ⟨p1, p2⟩ := p; simp only [hl] at h; cases h; exact hE
  | treeEdge u v =>
    simp only [discoveryHandler] at h
    cases hd : g.findEdgeDep u v with
    | none => simp only [hd] at h; cases h
    | some dep =>
      simp only [hd] at h
      by_cases hasync : dep.is_async = true
      · rw [if_pos hasync] at h
        cases hg : g.getNode v with
        | error err => simp only [hg] at h; cases h
        | ok m =>
          simp only [hg] at h
          cases h
          exact entry_addNode hE
      · rw [if_neg hasync] at h; cases h; exact hE
  | finish u =>
    simp only [discoveryHandler] at h
    cases hs : s.stack with
    | nil => simp only [hs] at h; cases h; exact hE
    | cons f t =>
      obtain ⟨m, gid⟩ := f
      simp only [hs] at h
      by_cases hm : m = u
      · rw [if_pos hm] at h; cases h; exact hE
      · rw [if_neg hm] at h; cases h; exact hE
  | backEdge u v => simp only [discoveryHandler] at h; cases h; exact hE
  | crossForwardEdge u v => simp only [discoveryHandler] at h; cases h; exact hE

theorem step1_entry {g : MGraph} {entries : List Nat} {d : DiscoverySt}
    (h : step1 g entries = .ok d) : ∀ e ∈ entries, entryChunkOk e d.chunk_graph := by
  intro e he
  unfold step1 at h
  cases hs : seedChunks g entries ([], ⟨[], []⟩) with
  | error err => rw [hs] at h; cases h
  | ok p =>
    obtain ⟨roots, cg⟩ := p
    simp only [hs] at h
    have hE0 : entryChunkOk e cg := seedChunks_entry hs e he
    exact depthFirstSearch_inv g entries (discoveryHandler g)
      (fun st => entryChunkOk e st.chunk_graph)
      (fun s ev s1 c hP hh => discoveryHandler_entry hP hh) hE0 h

theorem step3Body_entry {g : MGraph} {e : Nat} {roots : List (Nat × Nat × Nat)}
    {rc rm : List (Nat × Nat)} {m : Nat} {ps ps1 : PlacementSt}
    (hE : entryChunkOk e ps.chunk_graph)
    (h : step3Body g roots rc rm m ps = .ok ps1) :
    entryChunkOk e ps1.chunk_graph := by
  unfold step3Body at h
  cases hl : List.lookup m roots with
  | some p =>
    obtain ⟨cid, gid⟩ := p
    simp only [hl] at h
    cases hA : addEdgesLoop roots (dominanceFilter rc (incomingNeighbors rm m))
        m cid ps.chunk_graph with
    | error err => simp only [hA] at h; cases h
    | ok cg1 =>
      simp only [hA] at h
      cases h
      exact entry_of_nodes_eq (addEdgesLoop_nodes hA) hE
  | none =>
    simp only [hl] at h
    by_cases hre : (dominanceFilter rc (incomingNeighbors rm m)).isEmpty = true
    · rw [if_pos hre] at h; cases h; exact hE
    · rw [if_neg hre] at h
      cases hsb : sourceBundlesOf ps.bundles
          (dominanceFilter rc (incomingNeighbors rm m)) with
      | error err => simp only [hsb] at h; cases h
      | ok srcs =>
        simp only [hsb] at h
        cases hg : g.getNode m with
        | error err => simp only [hg] at h; cases h
        | ok asset =>
          simp only [hg] at h
          cases htr : List.lookup (dominanceFilter rc (incomingNeighbors rm m))
              ps.bundles with
          | some bid =>
            simp only [htr] at h
            cases hmod : ps.chunk_graph.modifyChunk bid (fun c =>
                { c with module_ids := c.module_ids ++ [m],
                         size := c.size + asset.size }) with
            | error err => simp only [hmod] at h; cases h
            | ok cg2 =>
              simp only [hmod] at h
              cases hA : addEdgesLoop roots
                  (dominanceFilter rc (incomingNeighbors rm m)) bid bid cg2 with
              | error err => simp only [hA] at h; cases h
              | ok cg3 =>
                simp only [hA] at h
                cases h
                exact entry_of_nodes_eq (addEdgesLoop_nodes hA)
                  (entry_modifyAppend hE hmod (fun c => ⟨rfl, rfl⟩))
          | none =>
            simp only [htr] at h
            have hE1 : entryChunkOk e (ps.chunk_graph.addNode
                { module_ids := [], size := 0, source_bundles := srcs }).2 :=
              entry_addNode hE
            cases hmod : (ps.chunk_graph.addNode
                { module_ids := [], size := 0,
                  source_bundles := srcs }).2.modifyChunk
                ps.chunk_graph.nodes.length (fun c =>
                { c with module_ids := c.module_ids ++ [m],
                         size := c.size + asset.size }) with
            | error err =>
              simp only [ChunkGraph.addNode] at h hmod
              simp only [hmod] at h
              cases h
            | ok cg2 =>
              simp only [ChunkGraph.addNode] at h hmod
              simp only [hmod] at h
              cases hA : addEdgesLoop roots
                  (dominanceFilter rc (incomingNeighbors rm m))
                  ps.chunk_graph.nodes.length ps.chunk_graph.nodes.length
                  cg2 with
              | error err => simp only [hA] at h; cases h
              | ok cg3 =>
                simp only [hA] at h
                cases h
                refine entry_of_nodes_eq (addEdgesLoop_nodes hA) ?_
                refine entry_modifyAppend ?_ hmod (fun c => ⟨rfl, rfl⟩)
                simpa [ChunkGraph.addNode] using hE1

theorem step3Go_entry {g : MGraph} {e : Nat} {roots : List (Nat × Nat × Nat)}
    {rc rm : List (Nat × Nat)} :
    ∀ {l : List Nat} {ps ps1 : PlacementSt}, entryChunkOk e ps.chunk_graph →
      step3Go g roots rc rm l ps = .ok ps1 → entryChunkOk e ps1.chunk_graph := by
  intro l
  induction l with
  | nil => intro ps ps1 hE h; cases h; exact hE
  | cons m rest ih =>
    intro ps ps1 hE h
    unfold step3Go at h
    cases hb : step3Body g roots rc rm m ps with
    | error err => simp only [hb] at h; cases h
    | ok psm =>
      simp only [hb] at h
      exact ih (step3Body_entry hE hb) h

theorem removeBundleAssetOne_entry {g : MGraph} {e : Nat} {a : Nat} :
    ∀ {srcs : List Nat} {cg cg1 : ChunkGraph}, entryChunkOk e cg →
      removeBundleAssets.removeBundleAssetOne g a srcs cg = .ok cg1 →
      entryChunkOk e cg1 := by
  intro srcs
  induction srcs with
  | nil => intro cg cg1 hE h; cases h; exact hE
  | cons sB rest ih =>
    intro cg cg1 hE h
    unfold removeBundleAssets.removeBundleAssetOne at h
    cases hg : g.getNode a with
    | error err => simp only [hg] at h; cases h
    | ok asset =>
      simp only [hg] at h
      cases hmod : cg.modifyChunk sB (fun c =>
          { c with module_ids := c.module_ids ++ [a],
                   size := c.size + asset.size }) with
      | error err => simp only [hmod] at h; cases h
      | ok cg2 =>
        simp only [hmod] at h
        exact ih (entry_modifyAppend hE hmod (fun c => ⟨rfl, rfl⟩)) h

theorem removeBundleAssets_entry {g : MGraph} {e : Nat} {sources : List Nat} :
    ∀ {assets : List Nat} {cg cg1 : ChunkGraph}, entryChunkOk e cg →
      removeBundleAssets g sources assets cg = .ok cg1 → entryChunkOk e cg1 := by
  intro assets
  induction assets with
  | nil => intro cg cg1 hE h; cases h; exact hE
  | cons a rest ih =>
    intro cg cg1 hE h
    unfold removeBundleAssets at h
    cases h1 : removeBundleAssets.removeBundleAssetOne g a sources cg with
    | error err => simp only [h1] at h; cases h
    | ok cg2 =>
      simp only [h1] at h
      exact ih (removeBundleAssetOne_entry hE h1) h

/-- `remove_bundle` of a chunk with non-empty sources keeps every entry-chunk
witness. -/
theorem removeBundle_entry {g : MGraph} {e : Nat} {cg cg1 : ChunkGraph}
    {i : Nat} {c : Chunk} (hget : cg.nodes.get? i = some c)
    (hsrc : c.source_bundles ≠ []) (hE : entryChunkOk e cg)
    (h : removeBundle g cg i = .ok cg1) : entryChunkOk e cg1 := by
  unfold removeBundle at h
  cases hrm : cg.removeNode i with
  | error err => simp only [hrm] at h; cases h
  | ok p =>
    obtain ⟨bundle, cg2⟩ := p
    simp only [hrm] at h
    have hbc : bundle = c := by
      unfold ChunkGraph.removeNode at hrm
      rw [hget] at hrm
      cases hrm
      rfl
    subst hbc
    exact removeBundleAssets_entry (entry_removeNode hE hrm hsrc) h

theorem step4Go_entry {g : MGraph} {e : Nat} :
    ∀ {l : List Nat} {cg cg1 : ChunkGraph}, entryChunkOk e cg →
      step4Go g l cg = .ok cg1 → entryChunkOk e cg1 := by
  intro l
  induction l with
  | nil => intro cg cg1 hE h; cases h; exact hE
  | cons i rest ih =>
    intro cg cg1 hE h
    unfold step4Go at h
    cases hc : cg.getChunk i with
    | error err => simp only [hc] at h; cases h
    | ok c =>
      simp only [hc] at h
      by_cases hcond : 0 < c.source_bundles.length ∧ c.size < 10
      · rw [if_pos hcond] at h
        cases hrb : removeBundle g cg i with
        | error err => simp only [hrb] at h; cases h
        | ok cg2 =>
          simp only [hrb] at h
          have hget : cg.nodes.get? i = some c := by
            unfold ChunkGraph.getChunk at hc
            cases hg : cg.nodes.get? i with
            | none => rw [hg] at hc; cases hc
            | some c2 => rw [hg] at hc; cases hc; rfl
          have hne : c.source_bundles ≠ [] := by
            intro hnil
            rw [hnil] at hcond
            simp at hcond
          exact ih (removeBundle_entry hget hne hE hrb) h
      · rw [if_neg hcond] at h
        exact ih hE h

/-- C4 (amended): for every input module graph and entry order on which the
pipeline completes Step 4 (with the chunk graph's edge count fitting in a
`usize`), the final output equals the Step-4 graph and every entry module
appears in *at least one* chunk whose module list begins with that entry and
whose source-chunk list is empty.  "Exactly one" fails when an entry is also
the target of an async dependency (see the counterexample), so only existence
holds in general. -/
theorem claim4_theorem (g : MGraph) (entries : List Nat) (m4 : Mid4)
    (h4 : runTo4 g entries = .ok m4) (hb : m4.cg.edges.length ≤ usizeMax)
    (e : Nat) (he : e ∈ entries) :
    run g entries = .ok m4.cg ∧ entryChunkOk e m4.cg := by
  constructor
  · unfold run
    simp only [h4]
    unfold step5
    exact step5Go_noop hb
  · obtain ⟨m3, h3, hd, hrm, hbun, hstep4⟩ := runTo4_parts h4
    obtain ⟨h2, hstep3⟩ := runTo3_parts h3
    obtain ⟨h1, _⟩ := runTo2_parts h2
    have hE1 : entryChunkOk e m3.d.chunk_graph := by
      rw [hd]
      rw [hd] at h1
      exact step1_entry h1 e he
    have hE3 : entryChunkOk e m3.ps.chunk_graph := step3Go_entry hE1 hstep3
    exact step4Go_entry hE3 hstep4

/-- C4 counterexample: on `asyncEntryGraph` (entries 0 and 1, async edge
0 → 1) the entry module 1 appears in TWO chunks of the final graph — its
original entry chunk and the async-split chunk created when the async edge is
discovered — refuting "every entry module appears in exactly one chunk". -/
theorem claim4_counterexample :
    ∃ cg : ChunkGraph, run asyncEntryGraph [0, 1] = .ok cg ∧
      (cg.nodes.filter (fun c => c.module_ids.contains 1)).length = 2 :=
  ⟨⟨[⟨[0], 1000, []⟩, ⟨[1], 1000, []⟩, ⟨[1], 1000, []⟩], []⟩, by rfl, by rfl⟩

/-- C4 witness: the reference run, entry 0. -/
theorem claim4_witness :
    run build_graph build_entries = .ok refMid4.cg ∧ entryChunkOk 0 refMid4.cg :=
  claim4_theorem build_graph build_entries refMid4 (by rfl) (by decide) 0
    (by decide)

/-! ## Step 3 success (claim C8): invariants feeding the placement loop -/

theorem lookup_mem {α β : Type} [BEq α] [LawfulBEq α] :
    ∀ {l : List (α × β)} {k : α} {v : β},
      List.lookup k l = some v → (k, v) ∈ l := by
  intro l
  induction l with
  | nil => intro k v h; simp [List.lookup] at h
  | cons p t ih =>
    intro k v h
    obtain ⟨k1, v1⟩ := p
    simp only [List.lookup] at h
    cases hk : k == k1 with
    | true =>
      rw [hk] at h
      cases h
      have : k = k1 := eq_of_beq hk
      subst this
      exact List.mem_cons_self _ _
    | false =>
      rw [hk] at h
      exact List.mem_cons_of_mem _ (ih h)

theorem lookup_isSome_of_mem {α β : Type} [BEq α] [LawfulBEq α] :
    ∀ {l : List (α × β)} {k : α} {v : β},
      (k, v) ∈ l → (List.lookup k l).isSome = true := by
  intro l
  induction l with
  | nil => intro k v h; cases h
  | cons p t ih =>
    intro k v h
    obtain ⟨k1, v1⟩ := p
    rcases List.mem_cons.mp h with h1 | h1
    · cases h1
      simp [List.lookup]
    · by_cases hk : (k == k1) = true
      · simp [List.lookup, hk]
      · simp only [List.lookup, hk]
        exact ih h1

theorem modifyChunk_length {cg cg2 : ChunkGraph} {i : Nat} {f : Chunk → Chunk}
    (h : cg.modifyChunk i f = .ok cg2) :
    cg2.nodes.length = cg.nodes.length := by
  unfold ChunkGraph.modifyChunk at h
  split at h
  · cases h; simp
  · cases h

/-- All chunk ids recorded in `chunk_roots` are valid node indices. -/
def rootsValid (roots : List (Nat × Nat × Nat)) (n : Nat) : Prop :=
  ∀ p ∈ roots, p.2.1 < n ∧ p.2.2 < n

theorem seedChunks_rootsValid {g : MGraph} :
    ∀ {entries : List Nat} {roots : List (Nat × Nat × Nat)} {cg : ChunkGraph}
      {roots1 : List (Nat × Nat × Nat)} {cg1 : ChunkGraph},
      seedChunks g entries (roots, cg) = .ok (roots1, cg1) →
      rootsValid roots cg.nodes.length →
      rootsValid roots1 cg1.nodes.length ∧
        cg.nodes.length ≤ cg1.nodes.length := by
  intro entries
  induction entries with
  | nil => intro _ _ _ _ h hv; cases h; exact ⟨hv, le_refl _⟩
  | cons e rest ih =>
    intro roots cg roots1 cg1 h hv
    unfold seedChunks at h
    cases hg : g.getNode e with
    | error err => rw [hg] at h; cases h
    | ok m =>
      rw [hg] at h
      have hv1 : rootsValid (insertRep roots e
          (cg.nodes.length, cg.nodes.length))
          (cg.addNode (Chunk.from_asset e m)).2.nodes.length := by
        intro p hp
        rcases mem_insertRep hp with hp1 | hp1
        · have := hv p hp1
          show p.2.1 < (cg.nodes ++ [Chunk.from_asset e m]).length ∧
            p.2.2 < (cg.nodes ++ [Chunk.from_asset e m]).length
          simp only [List.length_append, List.length_cons, List.length_nil]
          omega
        · subst hp1
          show cg.nodes.length < (cg.nodes ++ [_]).length ∧
            cg.nodes.length < (cg.nodes ++ [_]).length
          simp
      have := ih h hv1
      refine ⟨this.1, le_trans ?_ this.2⟩
      show cg.nodes.length ≤ (cg.nodes ++ [Chunk.from_asset e m]).length
      simp

theorem discoveryHandler_rootsValid {g : MGraph} {s s1 : DiscoverySt}
    {ev : DfsEvent} {c : Ctrl}
    (hv : rootsValid s.chunk_roots s.chunk_graph.nodes.length)
    (h : discoveryHandler g s ev = .ok (s1, c)) :
    rootsValid s1.chunk_roots s1.chunk_graph.nodes.length := by
  cases ev with
  | discover u =>
    simp only [discoveryHandler] at h
    cases hl : List.lookup u s.chunk_roots with
    | none => simp only [hl] at h; cases h; exact hv
    | some p => obtain ⟨p1, p2⟩ := p; simp only [hl] at h; cases h; exact hv
  | treeEdge u v =>
    simp only [discoveryHandler] at h
    cases hd : g.findEdgeDep u v with
    | none => simp only [hd] at h; cases h
    | some dep =>
      simp only [hd] at h
      by_cases hasync : dep.is_async = true
      · rw [if_pos hasync] at h
        cases hg : g.getNode v with
        | error err => simp only [hg] at h; cases h
        | ok m =>
          simp only [hg] at h
          cases h
          intro p hp
          rcases mem_insertRep hp with hp1 | hp1
          · have := hv p hp1
            show p.2.1 < (s.chunk_graph.nodes ++ [_]).length ∧
              p.2.2 < (s.chunk_graph.nodes ++ [_]).length
            simp only [List.length_append, List.length_cons, List.length_nil]
            omega
          · subst hp1
            show s.chunk_graph.nodes.length <
                (s.chunk_graph.nodes ++ [_]).length ∧
              s.chunk_graph.nodes.length < (s.chunk_graph.nodes ++ [_]).length
            simp
      · rw [if_neg hasync] at h; cases h; exact hv
  | finish u =>
    simp only [discoveryHandler] at h
    cases hs : s.stack with
    | nil => simp only [hs] at h; cases h; exact hv
    | cons f t =>
      obtain ⟨m, gid⟩ := f
      simp only [hs] at h
      by_cases hm : m = u
      · rw [if_pos hm] at h; cases h; exact hv
      · rw [if_neg hm] at h; cases h; exact hv
  | backEdge u v => simp only [discoveryHandler] at h; cases h; exact hv
  | crossForwardEdge u v => simp only [discoveryHandler] at h; cases h; exact hv

theorem step1_rootsValid {g : MGraph} {entries : List Nat} {d : DiscoverySt}
    (h : step1 g entries = .ok d) :
    rootsValid d.chunk_roots d.chunk_graph.nodes.length := by
  unfold step1 at h
  cases hs : seedChunks g entries ([], ⟨[], []⟩) with
  | error err => rw [hs] at h; cases h
  | ok p =>
    obtain ⟨roots, cg⟩ := p
    simp only [hs] at h
    have hv0 : rootsValid roots cg.nodes.length :=
      (seedChunks_rootsValid hs (by intro p hp; cases hp)).1
    exact depthFirstSearch_inv g entries (discoveryHandler g)
      (fun st => rootsValid st.chunk_roots st.chunk_graph.nodes.length)
      (fun s ev s1 c hP hh => discoveryHandler_rootsValid hP hh) hv0 h

theorem reachHandler_sources {roots : List (Nat × Nat × Nat)} {root : Nat}
    {rm rm1 : List (Nat × Nat)} {ev : DfsEvent} {c : Ctrl}
    (hroot : (List.lookup root roots).isSome = true)
    (hP : ∀ p ∈ rm, (List.lookup p.1 roots).isSome = true)
    (h : reachHandler roots root rm ev = .ok (rm1, c)) :
    ∀ p ∈ rm1, (List.lookup p.1 roots).isSome = true := by
  cases ev with
  | discover n =>
    simp only [reachHandler] at h
    by_cases hn : n = root
    · rw [if_pos hn] at h; cases h; exact hP
    · rw [if_neg hn] at h
      by_cases hr : (List.lookup n roots).isSome = true
      · rw [if_pos hr] at h; cases h; exact hP
      · rw [if_neg hr] at h
        cases h
        intro p hp
        rcases List.mem_append.mp hp with hp1 | hp1
        · exact hP p hp1
        · rcases List.mem_singleton.mp hp1 with rfl
          exact hroot
  | treeEdge u v => simp only [reachHandler] at h; cases h; exact hP
  | backEdge u v => simp only [reachHandler] at h; cases h; exact hP
  | crossForwardEdge u v => simp only [reachHandler] at h; cases h; exact hP
  | finish u => simp only [reachHandler] at h; cases h; exact hP

theorem step2Go_sources {g : MGraph} {roots : List (Nat × Nat × Nat)} :
    ∀ {l : List (Nat × Nat × Nat)} {rm rm1 : List (Nat × Nat)},
      (∀ q ∈ l, q ∈ roots) →
      (∀ p ∈ rm, (List.lookup p.1 roots).isSome = true) →
      step2Go g roots l rm = .ok rm1 →
      ∀ p ∈ rm1, (List.lookup p.1 roots).isSome = true := by
  intro l
  induction l with
  | nil => intro rm rm1 _ hP h; cases h; exact hP
  | cons q rest ih =>
    intro rm rm1 hsub hP h
    obtain ⟨root, v⟩ := q
    unfold step2Go at h
    cases hd : depthFirstSearch g [root] (reachHandler roots root) rm with
    | error e => simp only [hd] at h; cases h
    | ok rm2 =>
      simp only [hd] at h
      have hroot : (List.lookup root roots).isSome = true :=
        lookup_isSome_of_mem (hsub (root, v) (List.mem_cons_self _ _))
      have hP2 : ∀ p ∈ rm2, (List.lookup p.1 roots).isSome = true :=
        depthFirstSearch_inv g [root] (reachHandler roots root)
          (fun st => ∀ p ∈ st, (List.lookup p.1 roots).isSome = true)
          (fun s ev s1 c hPs hh => reachHandler_sources hroot hPs hh) hP hd
      exact ih (fun q hq => hsub q (List.mem_cons_of_mem _ hq)) hP2 h

theorem step2_sources {g : MGraph} {roots : List (Nat × Nat × Nat)}
    {rm : List (Nat × Nat)} (h : step2 g roots = .ok rm) :
    ∀ p ∈ rm, (List.lookup p.1 roots).isSome = true :=
  step2Go_sources (fun q hq => hq) (fun p hp => by cases hp) h

theorem mem_incoming {rm : List (Nat × Nat)} {m a : Nat}
    (h : a ∈ incomingNeighbors rm m) : (a, m) ∈ rm := by
  unfold incomingNeighbors at h
  rw [List.mem_reverse] at h
  rcases List.mem_map.mp h with ⟨p, hp, hfst⟩
  have hp2 := List.mem_filter.mp hp
  have : p.2 = m := by simpa using hp2.2
  have hpa : p = (a, m) := by
    obtain ⟨x, y⟩ := p
    simp only at hfst this
    rw [hfst, this]
  rw [← hpa]
  exact hp2.1

theorem mem_keyFun_sub {rc rm : List (Nat × Nat)} {m a : Nat}
    (h : a ∈ keyFun rc rm m) : (a, m) ∈ rm := by
  unfold keyFun dominanceFilter at h
  exact mem_incoming (List.mem_filter.mp h).1

theorem getNode_ok_of_lt {g : MGraph} {m : Nat} (hm : m < g.nodes.length) :
    ∃ asset, g.getNode m = .ok asset := by
  unfold MGraph.getNode
  cases hg : g.nodes.get? m with
  | none => rw [List.get?_eq_none] at hg; omega
  | some a => exact ⟨a, rfl⟩

theorem modifyChunk_ok {cg : ChunkGraph} {i : Nat} (f : Chunk → Chunk)
    (hi : i < cg.nodes.length) :
    ∃ cg2, cg.modifyChunk i f = .ok cg2 ∧
      cg2.nodes.length = cg.nodes.length := by
  refine ⟨{ cg with nodes := cg.nodes.set i (f (cg.nodes.getD i default)) },
    ?_, ?_⟩
  · unfold ChunkGraph.modifyChunk
    rw [if_pos hi]
  · simp

theorem addEdgesLoop_ok {roots : List (Nat × Nat × Nat)} :
    ∀ {l : List Nat} {skipVal target : Nat} {cg : ChunkGraph},
      target < cg.nodes.length →
      (∀ a ∈ l, a ≠ skipVal →
        ∃ v, List.lookup a roots = some v ∧ v.2 < cg.nodes.length) →
      ∃ cg2, addEdgesLoop roots l skipVal target cg = .ok cg2 ∧
        cg2.nodes = cg.nodes := by
  intro l
  induction l with
  | nil => intro _ _ cg _ _; exact ⟨cg, rfl, rfl⟩
  | cons a rest ih =>
    intro skipVal target cg htar hall
    by_cases ha : a = skipVal
    · unfold addEdgesLoop
      rw [if_pos ha]
      exact ih htar (fun b hb hbne => hall b (List.mem_cons_of_mem _ hb) hbne)
    · obtain ⟨v, hlv, hv2⟩ := hall a (List.mem_cons_self _ _) ha
      obtain ⟨v1, v2⟩ := v
      have hedge : cg.addEdge v2 target =
          .ok { cg with edges := cg.edges ++ [(v2, target)] } := by
        unfold ChunkGraph.addEdge
        rw [if_pos ⟨hv2, htar⟩]
      unfold addEdgesLoop
      rw [if_neg ha]
      simp only [hlv, hedge]
      obtain ⟨cg2, hrun, hnodes⟩ := ih
        (show target <
          ({ cg with edges := cg.edges ++ [(v2, target)] }).nodes.length
          from htar)
        (fun b hb hbne => by
          obtain ⟨w, hw, hw2⟩ := hall b (List.mem_cons_of_mem _ hb) hbne
          exact ⟨w, hw, hw2⟩)
      exact ⟨cg2, hrun, hnodes⟩

theorem sourceBundlesOf_ok {bundles : List (List Nat × Nat)} :
    ∀ {l : List Nat},
      (∀ a ∈ l, (List.lookup [a] bundles).isSome = true) →
      ∃ srcs, sourceBundlesOf bundles l = .ok srcs := by
  intro l
  induction l with
  | nil => exact fun _ => ⟨[], rfl⟩
  | cons a rest ih =>
    intro hall
    have ha := hall a (List.mem_cons_self _ _)
    cases hx : List.lookup [a] bundles with
    | none => rw [hx] at ha; cases ha
    | some bid =>
      obtain ⟨srcs, hs⟩ := ih (fun b hb => hall b (List.mem_cons_of_mem _ hb))
      refine ⟨bid :: srcs, ?_⟩
      unfold sourceBundlesOf
      simp only [hx, hs]

/-- The invariant carried through the Step-3 loop (`n0` is the node count of
the incoming chunk graph, `i` the next module index to process): every root
`r < i` has its singleton key in `bundles`, mapped to its chunk id; every
`bundles` value is a valid chunk index; every `bundles` key only holds module
indices `< i`; and the chunk graph only ever grows. -/
def placeInv (roots : List (Nat × Nat × Nat)) (n0 i : Nat)
    (ps : PlacementSt) : Prop :=
  (∀ r v, List.lookup r roots = some v → r < i →
    List.lookup [r] ps.bundles = some v.1) ∧
  (∀ q ∈ ps.bundles, q.2 < ps.chunk_graph.nodes.length) ∧
  (∀ q ∈ ps.bundles, ∀ a ∈ q.1, a < i) ∧
  n0 ≤ ps.chunk_graph.nodes.length

theorem step3Body_ok {g : MGraph} {roots : List (Nat × Nat × Nat)}
    {rc rm : List (Nat × Nat)} {n0 : Nat}
    (hval : rootsValid roots n0)
    (hsrc : ∀ p ∈ rm, (List.lookup p.1 roots).isSome = true)
    (H : ∀ m, m < g.nodes.length → List.lookup m roots = none →
      ∀ a ∈ keyFun rc rm m, a < m)
    {m : Nat} {ps : PlacementSt} (hm : m < g.nodes.length)
    (hInv : placeInv roots n0 m ps) :
    ∃ ps1, step3Body g roots rc rm m ps = .ok ps1 ∧
      placeInv roots n0 (m + 1) ps1 := by
  obtain ⟨inv1, inv2, inv3, inv4⟩ := hInv
  have hreach_roots : ∀ a ∈ dominanceFilter rc (incomingNeighbors rm m),
      ∃ v, List.lookup a roots = some v ∧ v.2 < ps.chunk_graph.nodes.length ∧
        v.1 < ps.chunk_graph.nodes.length := by
    intro a ha
    have hmem : (a, m) ∈ rm := mem_keyFun_sub ha
    have hsome := hsrc _ hmem
    cases hx : List.lookup a roots with
    | none => rw [hx] at hsome; cases hsome
    | some v =>
      have hvv : v.1 < n0 ∧ v.2 < n0 := hval _ (lookup_mem hx)
      exact ⟨v, rfl, by omega, by omega⟩
  cases hl : List.lookup m roots with
  | some v =>
    obtain ⟨cid, gid⟩ := v
    have hcid : cid < ps.chunk_graph.nodes.length := by
      have := hval _ (lookup_mem hl)
      simp only at this
      omega
    have habs : List.lookup [m] ps.bundles = none := by
      cases hx : List.lookup [m] ps.bundles with
      | none => rfl
      | some bid =>
        exfalso
        have := inv3 _ (lookup_mem hx) m (by simp)
        omega
    obtain ⟨cg2, hA, hnodes⟩ := @addEdgesLoop_ok roots
      (dominanceFilter rc (incomingNeighbors rm m)) m cid ps.chunk_graph
      hcid
      (fun a ha hane => by
        obtain ⟨w, hw, hw2, _⟩ := hreach_roots a ha
        exact ⟨w, hw, hw2⟩)
    refine ⟨⟨ps.bundles ++ [([m], cid)], cg2⟩, ?_, ?_, ?_, ?_, ?_⟩
    · simp only [step3Body, hl, habs, hA]
      simp
    · -- singleton keys of processed roots
      intro r w hw hr
      rcases Nat.lt_succ_iff_lt_or_eq.mp hr with hr1 | hr1
      · exact lookup_append_of_some _ (inv1 r w hw hr1)
      · subst hr1
        rw [hw] at hl
        cases hl
        rw [lookup_append_of_none _ habs]
        simp [List.lookup]
    · -- bundle values valid
      intro q hq
      show q.2 < cg2.nodes.length
      rw [hnodes]
      rcases List.mem_append.mp hq with hq1 | hq1
      · exact inv2 q hq1
      · rcases List.mem_singleton.mp hq1 with rfl
        exact hcid
    · -- bundle keys bounded
      intro q hq a ha
      rcases List.mem_append.mp hq with hq1 | hq1
      · have := inv3 q hq1 a ha
        omega
      · rcases List.mem_singleton.mp hq1 with rfl
        rcases List.mem_singleton.mp ha with rfl
        omega
    · show n0 ≤ cg2.nodes.length
      rw [hnodes]
      exact inv4
  | none =>
    by_cases hre : (dominanceFilter rc (incomingNeighbors rm m)).isEmpty = true
    · refine ⟨ps, ?_, ?_, inv2, ?_, inv4⟩
      · simp only [step3Body, hl, if_pos hre]
      · intro r w hw hr
        rcases Nat.lt_succ_iff_lt_or_eq.mp hr with hr1 | hr1
        · exact inv1 r w hw hr1
        · subst hr1; rw [hw] at hl; cases hl
      · intro q hq a ha
        have := inv3 q hq a ha
        omega
    · have hkey : ∀ a ∈ dominanceFilter rc (incomingNeighbors rm m), a < m :=
        H m hm hl
      have hsingles : ∀ a ∈ dominanceFilter rc (incomingNeighbors rm m),
          (List.lookup [a] ps.bundles).isSome = true := by
        intro a ha
        obtain ⟨w, hw, _, _⟩ := hreach_roots a ha
        rw [inv1 a w hw (hkey a ha)]
        rfl
      obtain ⟨srcs, hsb⟩ := sourceBundlesOf_ok hsingles
      obtain ⟨asset, hgn⟩ := getNode_ok_of_lt hm
      cases htr : List.lookup (dominanceFilter rc (incomingNeighbors rm m))
          ps.bundles with
      | some bid =>
        have hbid : bid < ps.chunk_graph.nodes.length := inv2 _ (lookup_mem htr)
        obtain ⟨cg2, hmod, hlen2⟩ := modifyChunk_ok (fun c =>
          { c with module_ids := c.module_ids ++ [m],
                   size := c.size + asset.size }) hbid
        obtain ⟨cg3, hA, hnodes3⟩ := @addEdgesLoop_ok roots
          (dominanceFilter rc (incomingNeighbors rm m))
          bid bid cg2 (show bid < cg2.nodes.length by omega)
          (fun a ha hane => by
            obtain ⟨w, hw, hw2, _⟩ := hreach_roots a ha
            exact ⟨w, hw, by omega⟩)
        refine ⟨⟨ps.bundles, cg3⟩, ?_, ?_, ?_, ?_, ?_⟩
        · simp only [step3Body, hl, if_neg hre, hsb, hgn, htr, hmod, hA]
        · intro r w hw hr
          rcases Nat.lt_succ_iff_lt_or_eq.mp hr with hr1 | hr1
          · exact inv1 r w hw hr1
          · subst hr1; rw [hw] at hl; cases hl
        · intro q hq
          show q.2 < cg3.nodes.length
          rw [hnodes3]
          have := inv2 q hq
          omega
        · intro q hq a ha
          have := inv3 q hq a ha
          omega
        · show n0 ≤ cg3.nodes.length
          rw [hnodes3]
          omega
      | none =>
        obtain ⟨cg2, hmod, hlen2⟩ := @modifyChunk_ok
          (ps.chunk_graph.addNode
            { module_ids := [], size := 0, source_bundles := srcs }).2
          ps.chunk_graph.nodes.length
          (fun c => { c with module_ids := c.module_ids ++ [m],
                             size := c.size + asset.size })
          (by simp [ChunkGraph.addNode])
        have hlen2b : cg2.nodes.length = ps.chunk_graph.nodes.length + 1 := by
          rw [hlen2]
          simp [ChunkGraph.addNode]
        obtain ⟨cg3, hA, hnodes3⟩ := @addEdgesLoop_ok roots
          (dominanceFilter rc (incomingNeighbors rm m))
          ps.chunk_graph.nodes.length ps.chunk_graph.nodes.length cg2
          (show ps.chunk_graph.nodes.length < cg2.nodes.length by omega)
          (fun a ha hane => by
            obtain ⟨w, hw, hw2, _⟩ := hreach_roots a ha
            exact ⟨w, hw, by omega⟩)
        refine ⟨⟨ps.bundles ++
            [(dominanceFilter rc (incomingNeighbors rm m),
              ps.chunk_graph.nodes.length)], cg3⟩, ?_, ?_, ?_, ?_, ?_⟩
        · have hmod2 := hmod
          simp only [ChunkGraph.addNode] at hmod2
          simp only [step3Body, hl, if_neg hre, hsb, hgn, htr,
            ChunkGraph.addNode]
          simp only [hmod2, hA]
        · intro r w hw hr
          rcases Nat.lt_succ_iff_lt_or_eq.mp hr with hr1 | hr1
          · exact lookup_append_of_some _ (inv1 r w hw hr1)
          · subst hr1; rw [hw] at hl; cases hl
        · intro q hq
          show q.2 < cg3.nodes.length
          rw [hnodes3]
          rcases List.mem_append.mp hq with hq1 | hq1
          · have := inv2 q hq1
            omega
          · rcases List.mem_singleton.mp hq1 with rfl
            omega
        · intro q hq a ha
          rcases List.mem_append.mp hq with hq1 | hq1
          · have := inv3 q hq1 a ha
            omega
          · rcases List.mem_singleton.mp hq1 with rfl
            have := hkey a ha
            omega
        · show n0 ≤ cg3.nodes.length
          rw [hnodes3]
          omega

theorem step3Go_ok {g : MGraph} {roots : List (Nat × Nat × Nat)}
    {rc rm : List (Nat × Nat)} {n0 : Nat}
    (hval : rootsValid roots n0)
    (hsrc : ∀ p ∈ rm, (List.lookup p.1 roots).isSome = true)
    (H : ∀ m, m < g.nodes.length → List.lookup m roots = none →
      ∀ a ∈ keyFun rc rm m, a < m) :
    ∀ (cnt i : Nat) (ps : PlacementSt), i + cnt ≤ g.nodes.length →
      placeInv roots n0 i ps →
      ∃ ps1, step3Go g roots rc rm (List.range' i cnt) ps = .ok ps1 := by
  intro cnt
  induction cnt with
  | zero => intro i ps _ _; exact ⟨ps, rfl⟩
  | succ c ih =>
    intro i ps hle hInv
    have hm : i < g.nodes.length := by omega
    obtain ⟨ps1, hbody, hInv1⟩ := step3Body_ok hval hsrc H hm hInv
    obtain ⟨ps2, hrest⟩ := ih (i + 1) ps1 (by omega) hInv1
    refine ⟨ps2, ?_⟩
    rw [show List.range' i (c + 1) = i :: List.range' (i + 1) c from rfl]
    unfold step3Go
    simp only [hbody, hrest]

theorem step3_ok {g : MGraph} {roots : List (Nat × Nat × Nat)}
    {rc rm : List (Nat × Nat)} {cg0 : ChunkGraph}
    (hval : rootsValid roots cg0.nodes.length)
    (hsrc : ∀ p ∈ rm, (List.lookup p.1 roots).isSome = true)
    (H : ∀ m, m < g.nodes.length → List.lookup m roots = none →
      ∀ a ∈ keyFun rc rm m, a < m) :
    ∃ ps, step3 g roots rc rm cg0 = .ok ps := by
  unfold step3
  rw [List.range_eq_range']
  refine step3Go_ok hval hsrc H g.nodes.length 0 ⟨[], cg0⟩ (by omega) ?_
  refine ⟨?_, ?_, ?_, le_refl _⟩
  · intro r v _ hr; omega
  · intro q hq; cases hq
  · intro q hq; cases hq

/-- C8 (amended): the Step-3 placement loop is *not* panic-free in general
(see the counterexample), but it completes without error whenever every root
`a` occurring in the dominance-filtered reachable set of a non-root module
`m` has a smaller node index than `m` — i.e. when roots are iterated before
the modules they reach, so that each singleton key `[a]` is already seeded in
the `bundles` map when `bundles[[a]]` is evaluated. -/
theorem claim8_theorem (g : MGraph) (entries : List Nat) (m2 : Mid2)
    (h2 : runTo2 g entries = .ok m2)
    (H : ∀ m, m < g.nodes.length → List.lookup m m2.d.chunk_roots = none →
      ∀ a ∈ keyFun m2.d.reachable_chunks m2.rm m, a < m) :
    ∃ ps, step3 g m2.d.chunk_roots m2.d.reachable_chunks m2.rm
      m2.d.chunk_graph = .ok ps := by
  obtain ⟨h1, hstep2⟩ := runTo2_parts h2
  exact step3_ok (step1_rootsValid h1) (step2_sources hstep2) H

/-- C8 witness: on the reference graph every key element precedes its module,
so Step 3 succeeds. -/
theorem claim8_witness :
    ∃ ps, step3 build_graph refMid4.d.chunk_roots
      refMid4.d.reachable_chunks refMid4.rm refMid4.d.chunk_graph = .ok ps :=
  claim8_theorem build_graph build_entries ⟨refMid4.d, refMid4.rm⟩ (by rfl)
    (by decide)

/-- C8 counterexample: on `lowIndexModuleGraph` the non-root module 1 has the
async-split root 2 (a higher node index) in its key, so when module 1 is
placed the singleton key `[2]` is not yet in `bundles` and the
`bundles[&vec![*a]]` indexing panics — the claim that the placement loop
never panics is false. -/
theorem claim8_counterexample :
    keyOfRun lowIndexModuleGraph [0] 1 = [2] ∧
    (List.lookup 2 (rootsRun lowIndexModuleGraph [0])).isSome = true ∧
    run lowIndexModuleGraph [0] = .error "bundles singleton lookup failed" :=
  ⟨by rfl, by rfl, by rfl⟩

/-! ## Order structure of the embedding's reachability list

Under the insertion-order determinization of hash iteration used throughout
this file, the `reachable_nodes` list decomposes into per-root blocks, so
every placement key is a sublist of one fixed duplicate-free enumeration of
the roots.  This is a property of the determinization, NOT of the program:
Rust iterates the `HashSet` in unspecified hash order, which need not be
consistent across modules.  The lemmas below record the structure of the
model; no claim theorem relies on it. -/

theorem seedChunks_keysNodup {g : MGraph} :
    ∀ {entries : List Nat} {roots : List (Nat × Nat × Nat)} {cg : ChunkGraph}
      {roots1 : List (Nat × Nat × Nat)} {cg1 : ChunkGraph},
      seedChunks g entries (roots, cg) = .ok (roots1, cg1) →
      (roots.map Prod.fst).Nodup → (roots1.map Prod.fst).Nodup := by
  intro entries
  induction entries with
  | nil => intro _ _ _ _ h hnd; cases h; exact hnd
  | cons e rest ih =>
    intro roots cg roots1 cg1 h hnd
    unfold seedChunks at h
    cases hg : g.getNode e with
    | error err => rw [hg] at h; cases h
    | ok m =>
      rw [hg] at h
      exact ih h (keys_nodup_insertRep hnd)

theorem discoveryHandler_keysNodup {g : MGraph} {s s1 : DiscoverySt}
    {ev : DfsEvent} {c : Ctrl} (hnd : (s.chunk_roots.map Prod.fst).Nodup)
    (h : discoveryHandler g s ev = .ok (s1, c)) :
    (s1.chunk_roots.map Prod.fst).Nodup := by
  cases ev with
  | discover u =>
    simp only [discoveryHandler] at h
    cases hl : List.lookup u s.chunk_roots with
    | none => simp only [hl] at h; cases h; exact hnd
    | some p => obtain ⟨p1, p2⟩ := p; simp only [hl] at h; cases h; exact hnd
  | treeEdge u v =>
    simp only [discoveryHandler] at h
    cases hd : g.findEdgeDep u v with
    | none => simp only [hd] at h; cases h
    | some dep =>
      simp only [hd] at h
      by_cases hasync : dep.is_async = true
      · rw [if_pos hasync] at h
        cases hg : g.getNode v with
        | error err => simp only [hg] at h; cases h
        | ok m =>
          simp only [hg] at h
          cases h
          exact keys_nodup_insertRep hnd
      · rw [if_neg hasync] at h; cases h; exact hnd
  | finish u =>
    simp only [discoveryHandler] at h
    cases hs : s.stack with
    | nil => simp only [hs] at h; cases h; exact hnd
    | cons f t =>
      obtain ⟨m, gid⟩ := f
      simp only [hs] at h
      by_cases hm : m = u
      · rw [if_pos hm] at h; cases h; exact hnd
      · rw [if_neg hm] at h; cases h; exact hnd
  | backEdge u v => simp only [discoveryHandler] at h; cases h; exact hnd
  | crossForwardEdge u v => simp only [discoveryHandler] at h; cases h; exact hnd

theorem step1_keysNodup {g : MGraph} {entries : List Nat} {d : DiscoverySt}
    (h : step1 g entries = .ok d) : (d.chunk_roots.map Prod.fst).Nodup := by
  unfold step1 at h
  cases hs : seedChunks g entries ([], ⟨[], []⟩) with
  | error err => rw [hs] at h; cases h
  | ok p =>
    obtain ⟨roots, cg⟩ := p
    simp only [hs] at h
    have hnd0 : (roots.map Prod.fst).Nodup :=
      seedChunks_keysNodup hs (by simp)
    exact depthFirstSearch_inv g entries (discoveryHandler g)
      (fun st => (st.chunk_roots.map Prod.fst).Nodup)
      (fun s ev s1 c hP hh => discoveryHandler_keysNodup hP hh) hnd0 h

/-- Inside one Step-2 DFS block all recorded pairs carry the current root as
source and pairwise distinct targets. -/
theorem reachHandler_block {roots : List (Nat × Nat × Nat)} {root : Nat}
    {rm0 : List (Nat × Nat)} :
    ∀ {d : List Nat} {st : List (Nat × Nat)} {u : Nat}
      {st1 : List (Nat × Nat)} {c : Ctrl} {ev : DfsEvent},
      (∃ bl, st = rm0 ++ bl ∧ (∀ p ∈ bl, p.1 = root) ∧
        (bl.map Prod.snd).Nodup ∧ (∀ p ∈ bl, p.2 ∈ d)) →
      reachHandler roots root st ev = .ok (st1, c) →
      (match ev with
       | .discover u => u ∉ d
       | _ => True) →
      ∃ bl, st1 = rm0 ++ bl ∧ (∀ p ∈ bl, p.1 = root) ∧
        (bl.map Prod.snd).Nodup ∧
        (∀ p ∈ bl, p.2 ∈ (match ev with | .discover u => u :: d | _ => d)) := by
  intro d st u st1 c ev hP h hpre
  obtain ⟨bl, hst, hfst, hnd, hsub⟩ := hP
  cases ev with
  | discover n =>
    simp only [reachHandler] at h
    by_cases hn : n = root
    · rw [if_pos hn] at h
      cases h
      exact ⟨bl, hst, hfst, hnd, fun p hp => List.mem_cons_of_mem _ (hsub p hp)⟩
    · rw [if_neg hn] at h
      by_cases hr : (List.lookup n roots).isSome = true
      · rw [if_pos hr] at h
        cases h
        exact ⟨bl, hst, hfst, hnd,
          fun p hp => List.mem_cons_of_mem _ (hsub p hp)⟩
      · rw [if_neg hr] at h
        cases h
        refine ⟨bl ++ [(root, n)], by rw [hst, List.append_assoc], ?_, ?_, ?_⟩
        · intro p hp
          rcases List.mem_append.mp hp with hp1 | hp1
          · exact hfst p hp1
          · rcases List.mem_singleton.mp hp1 with rfl; rfl
        · rw [List.map_append]
          refine List.Nodup.append hnd (by simp) ?_
          intro x hx hx2
          rcases List.mem_singleton.mp (by simpa using hx2) with rfl
          rcases List.mem_map.mp hx with ⟨p, hp, hp2⟩
          exact hpre (by rw [← hp2] at *; exact hsub p hp)
        · intro p hp
          rcases List.mem_append.mp hp with hp1 | hp1
          · exact List.mem_cons_of_mem _ (hsub p hp1)
          · rcases List.mem_singleton.mp hp1 with rfl
            exact List.mem_cons_self _ _
  | treeEdge u v =>
    simp only [reachHandler] at h; cases h; exact ⟨bl, hst, hfst, hnd, hsub⟩
  | backEdge u v =>
    simp only [reachHandler] at h; cases h; exact ⟨bl, hst, hfst, hnd, hsub⟩
  | crossForwardEdge u v =>
    simp only [reachHandler] at h; cases h; exact ⟨bl, hst, hfst, hnd, hsub⟩
  | finish u =>
    simp only [reachHandler] at h; cases h; exact ⟨bl, hst, hfst, hnd, hsub⟩

/-- One Step-2 DFS appends a block of pairs `(root, ·)` with pairwise
distinct targets to the accumulated relation. -/
theorem step2_block {g : MGraph} {roots : List (Nat × Nat × Nat)} {root : Nat}
    {rm0 rm2 : List (Nat × Nat)}
    (h : depthFirstSearch g [root] (reachHandler roots root) rm0 = .ok rm2) :
    ∃ bl, rm2 = rm0 ++ bl ∧ (∀ p ∈ bl, p.1 = root) ∧
      (bl.map Prod.snd).Nodup := by
  unfold depthFirstSearch at h
  cases hr : dfsRun g.outNeighbors (reachHandler roots root)
      (dfsFuel g [root]) ([root].map DfsTask.visit) ⟨[], [], rm0⟩ with
  | error e => rw [hr] at h; cases h
  | ok sfin =>
    rw [hr] at h
    cases h
    have hinit : ∃ bl, rm0 = rm0 ++ bl ∧ (∀ p ∈ bl, p.1 = root) ∧
        (bl.map Prod.snd).Nodup ∧ (∀ p ∈ bl, p.2 ∈ ([] : List Nat)) := by
      refine ⟨[], by simp, ?_, ?_, ?_⟩
      · intro p hp; cases hp
      · simp
      · intro p hp; cases hp
    have hfin := dfsRun_inv g.outNeighbors (reachHandler roots root)
      (fun st => ∃ bl, st.st = rm0 ++ bl ∧ (∀ p ∈ bl, p.1 = root) ∧
        (bl.map Prod.snd).Nodup ∧ (∀ p ∈ bl, p.2 ∈ st.discovered))
      (fun d f st u st1 c hP hu hh =>
        reachHandler_block (u := u) hP hh hu)
      (fun d f st u v st1 c hP hh =>
        reachHandler_block (u := u) hP hh trivial)
      (fun d f st u v st1 c hP hh =>
        reachHandler_block (u := u) hP hh trivial)
      (fun d f st u v st1 c hP hh =>
        reachHandler_block (u := u) hP hh trivial)
      (fun d f st u st1 c hP hh =>
        reachHandler_block (u := u) hP hh trivial)
      _ _ _ _ hinit hr
    obtain ⟨bl, h1, h2, h3, _⟩ := hfin
    exact ⟨bl, h1, h2, h3⟩

theorem block_filter {root m : Nat} :
    ∀ {bl : List (Nat × Nat)}, (∀ p ∈ bl, p.1 = root) →
      (bl.map Prod.snd).Nodup →
      (bl.filter (fun p => p.2 == m)).map Prod.fst
        = if (root, m) ∈ bl then [root] else [] := by
  intro bl
  induction bl with
  | nil => intro _ _; simp
  | cons p t ih =>
    intro hf hnd
    obtain ⟨r0, t0⟩ := p
    have hr0 : r0 = root := hf (r0, t0) (List.mem_cons_self _ _)
    rw [hr0] at hf ⊢
    simp only [List.map_cons, List.nodup_cons] at hnd
    have hft : ∀ q ∈ t, q.1 = root := fun q hq =>
      hf q (List.mem_cons_of_mem _ hq)
    by_cases ht : t0 = m
    · subst ht
      have htail : t.filter (fun p => p.2 == t0) = [] := by
        rw [List.filter_eq_nil]
        intro q hq hq2
        exact hnd.1 (List.mem_map.mpr ⟨q, hq, by simpa using hq2⟩)
      rw [if_pos (List.mem_cons_self _ _)]
      rw [show ((root, t0) :: t).filter (fun p => p.2 == t0)
          = (root, t0) :: t.filter (fun p => p.2 == t0) from by
        simp [List.filter_cons]]
      rw [htail]
      rfl
    · rw [show ((root, t0) :: t).filter (fun p => p.2 == m)
          = t.filter (fun p => p.2 == m) from by
        simp [List.filter_cons, ht]]
      rw [ih hft hnd.2]
      have : ((root, m) ∈ (root, t0) :: t) ↔ ((root, m) ∈ t) := by
        constructor
        · intro h
          rcases List.mem_cons.mp h with h1 | h1
          · cases h1; exact absurd rfl ht
          · exact h1
        · exact List.mem_cons_of_mem _
      by_cases hmem : (root, m) ∈ t
      · rw [if_pos hmem, if_pos (this.mpr hmem)]
      · rw [if_neg hmem, if_neg (fun hc => hmem (this.mp hc))]

theorem step2Go_char {g : MGraph} {roots : List (Nat × Nat × Nat)}
    (hnd : (roots.map Prod.fst).Nodup) :
    ∀ {l P : List (Nat × Nat × Nat)} {rm : List (Nat × Nat)},
      roots = P ++ l →
      (∀ m, (rm.filter (fun p => p.2 == m)).map Prod.fst
          = (P.map Prod.fst).filter (fun r => decide ((r, m) ∈ rm))) →
      (∀ p ∈ rm, p.1 ∈ P.map Prod.fst) →
      ∀ {rm1 : List (Nat × Nat)}, step2Go g roots l rm = .ok rm1 →
        (∀ m, (rm1.filter (fun p => p.2 == m)).map Prod.fst
          = (roots.map Prod.fst).filter (fun r => decide ((r, m) ∈ rm1))) ∧
        (∀ p ∈ rm1, p.1 ∈ roots.map Prod.fst) := by
  intro l
  induction l with
  | nil =>
    intro P rm hPl hchar hmem rm1 h
    cases h
    rw [List.append_nil] at hPl
    subst hPl
    exact ⟨hchar, hmem⟩
  | cons q rest ih =>
    intro P rm hPl hchar hmem rm1 h
    obtain ⟨root, v⟩ := q
    unfold step2Go at h
    cases hd : depthFirstSearch g [root] (reachHandler roots root) rm with
    | error e => simp only [hd] at h; cases h
    | ok rm2 =>
      simp only [hd] at h
      obtain ⟨bl, hbl, hfst, hndt⟩ := step2_block hd
      subst hbl
      have hroot_notP : root ∉ P.map Prod.fst := by
        rw [hPl] at hnd
        rw [List.map_append] at hnd
        have := (List.nodup_append.mp hnd).2.2
        intro hin
        exact this hin (by simp)
      refine @ih (P ++ [(root, v)]) (rm ++ bl)
        (by rw [hPl]; simp) ?_ ?_ rm1 h
      · intro m
        rw [List.filter_append, List.map_append]
        rw [hchar m]
        rw [block_filter hfst hndt]
        rw [List.map_append, List.filter_append]
        have hc1 : (P.map Prod.fst).filter (fun r => decide ((r, m) ∈ rm))
            = (P.map Prod.fst).filter (fun r => decide ((r, m) ∈ rm ++ bl)) := by
          apply List.filter_congr
          intro r hr
          simp only [decide_eq_decide, List.mem_append]
          constructor
          · exact fun h1 => Or.inl h1
          · intro h1
            rcases h1 with h1 | h1
            · exact h1
            · exfalso
              have : r = root := hfst (r, m) h1
              subst this
              exact hroot_notP hr
        rw [← hc1]
        congr 1
        have hc2 : ((root, m) ∈ rm ++ bl) ↔ ((root, m) ∈ bl) := by
          rw [List.mem_append]
          constructor
          · intro h1
            rcases h1 with h1 | h1
            · exfalso
              exact hroot_notP (hmem (root, m) h1)
            · exact h1
          · exact Or.inr
        by_cases hmem2 : (root, m) ∈ bl
        · rw [if_pos hmem2]
          simp only [List.map_cons, List.map_nil, List.filter]
          rw [show decide ((root, m) ∈ rm ++ bl) = true from by
            simp [hc2, hmem2]]
        · rw [if_neg hmem2]
          simp only [List.map_cons, List.map_nil, List.filter]
          rw [show decide ((root, m) ∈ rm ++ bl) = false from by
            simp [hc2, hmem2]]
      · intro p hp
        rw [List.map_append]
        rcases List.mem_append.mp hp with hp1 | hp1
        · exact List.mem_append.mpr (Or.inl (hmem p hp1))
        · refine List.mem_append.mpr (Or.inr ?_)
          rw [hfst p hp1]
          simp

theorem step2_char {g : MGraph} {roots : List (Nat × Nat × Nat)}
    {rm : List (Nat × Nat)} (hnd : (roots.map Prod.fst).Nodup)
    (h : step2 g roots = .ok rm) :
    ∀ m, (rm.filter (fun p => p.2 == m)).map Prod.fst
      = (roots.map Prod.fst).filter (fun r => decide ((r, m) ∈ rm)) :=
  (@step2Go_char g roots hnd roots [] [] (by simp) (by simp)
    (fun p hp => by cases hp) rm h).1

theorem keyFun_sublist {roots : List (Nat × Nat × Nat)}
    {rm rc : List (Nat × Nat)} {m : Nat}
    (hC : (rm.filter (fun p => p.2 == m)).map Prod.fst
      = (roots.map Prod.fst).filter (fun r => decide ((r, m) ∈ rm))) :
    (keyFun rc rm m).Sublist ((roots.map Prod.fst).reverse) := by
  unfold keyFun dominanceFilter incomingNeighbors
  rw [hC]
  exact (List.filter_sublist _).trans
    ((List.filter_sublist _).reverse)

/-- The placement keys of two modules with equal key *sets* are equal as
lists: both keys are sublists of the reversed root-key list, which is
duplicate-free. -/
theorem keyFun_eq_of_set_eq {roots : List (Nat × Nat × Nat)}
    {rm rc : List (Nat × Nat)} {m1 m2 : Nat}
    (hnd : (roots.map Prod.fst).Nodup)
    (hC1 : (rm.filter (fun p => p.2 == m1)).map Prod.fst
      = (roots.map Prod.fst).filter (fun r => decide ((r, m1) ∈ rm)))
    (hC2 : (rm.filter (fun p => p.2 == m2)).map Prod.fst
      = (roots.map Prod.fst).filter (fun r => decide ((r, m2) ∈ rm)))
    (hset : ∀ x, x ∈ keyFun rc rm m1 ↔ x ∈ keyFun rc rm m2) :
    keyFun rc rm m1 = keyFun rc rm m2 :=
  sublist_eq_of_mem_iff (keyFun_sublist hC1) (keyFun_sublist hC2)
    (List.nodup_reverse.mpr hnd) hset

/-! ## Placement puts equal keys into one chunk -/

/-- The chunk at index `c` contains module `m0`. -/
def graphHas (cg : ChunkGraph) (c m0 : Nat) : Prop :=
  ∃ ch, cg.nodes.get? c = some ch ∧ m0 ∈ ch.module_ids

theorem graphHas_nodes_eq {cg cg2 : ChunkGraph} {c m0 : Nat}
    (h : cg2.nodes = cg.nodes) (hG : graphHas cg c m0) : graphHas cg2 c m0 := by
  obtain ⟨ch, h1, h2⟩ := hG
  exact ⟨ch, by rw [h]; exact h1, h2⟩

theorem graphHas_addNode {cg : ChunkGraph} {c m0 : Nat} {ch1 : Chunk}
    (hG : graphHas cg c m0) : graphHas (cg.addNode ch1).2 c m0 := by
  obtain ⟨ch, h1, h2⟩ := hG
  have hc : c < cg.nodes.length := (List.get?_eq_some.mp h1).1
  refine ⟨ch, ?_, h2⟩
  show (cg.nodes ++ [ch1]).get? c = some ch
  rw [List.get?_append hc]
  exact h1

theorem graphHas_modifyAppend {cg cg2 : ChunkGraph} {i c m0 : Nat}
    {f : Chunk → Chunk}
    (hf : ∀ ch, ∃ l2, (f ch).module_ids = ch.module_ids ++ l2)
    (hmod : cg.modifyChunk i f = .ok cg2) (hG : graphHas cg c m0) :
    graphHas cg2 c m0 := by
  unfold ChunkGraph.modifyChunk at hmod
  by_cases hlt : i < cg.nodes.length
  · rw [if_pos hlt] at hmod
    cases hmod
    obtain ⟨ch, h1, h2⟩ := hG
    by_cases hic : i = c
    · subst hic
      have hgd : cg.nodes.getD i default = ch := by
        rw [List.getD_eq_getElem?_getD, ← List.get?_eq_getElem?, h1]; rfl
      refine ⟨f ch, ?_, ?_⟩
      · show (cg.nodes.set i (f (cg.nodes.getD i default))).get? i = some (f ch)
        rw [hgd]
        exact List.get?_set_eq_of_lt _ hlt
      · obtain ⟨l2, hl2⟩ := hf ch
        rw [hl2]
        exact List.mem_append.mpr (Or.inl h2)
    · refine ⟨ch, ?_, h2⟩
      show (cg.nodes.set i _).get? c = some ch
      rw [List.get?_set_ne _ _ hic]
      exact h1
  · rw [if_neg hlt] at hmod; cases hmod

/-- Everything Step 3 has established is stable under processing further
modules: `bundles` entries keep their values and chunk members stay put. -/
theorem step3Body_mono {g : MGraph} {roots : List (Nat × Nat × Nat)}
    {rc rm : List (Nat × Nat)} {m : Nat} {ps ps1 : PlacementSt}
    (h : step3Body g roots rc rm m ps = .ok ps1) :
    (∀ k v, List.lookup k ps.bundles = some v →
      List.lookup k ps1.bundles = some v) ∧
    (∀ c m0, graphHas ps.chunk_graph c m0 → graphHas ps1.chunk_graph c m0) := by
  unfold step3Body at h
  cases hl : List.lookup m roots with
  | some v =>
    obtain ⟨cid, gid⟩ := v
    simp only [hl] at h
    cases hA : addEdgesLoop roots (dominanceFilter rc (incomingNeighbors rm m))
        m cid ps.chunk_graph with
    | error err => simp only [hA] at h; cases h
    | ok cg1 =>
      simp only [hA] at h
      cases h
      constructor
      · intro k v hk
        show List.lookup k (if (List.lookup [m] ps.bundles).isSome
            then ps.bundles else ps.bundles ++ [([m], cid)]) = some v
        by_cases hx : (List.lookup [m] ps.bundles).isSome = true
        · rw [if_pos hx]; exact hk
        · rw [if_neg hx]; exact lookup_append_of_some _ hk
      · intro c m0 hG
        exact graphHas_nodes_eq (addEdgesLoop_nodes hA) hG
  | none =>
    simp only [hl] at h
    by_cases hre : (dominanceFilter rc (incomingNeighbors rm m)).isEmpty = true
    · rw [if_pos hre] at h; cases h; exact ⟨fun k v hk => hk, fun c m0 hG => hG⟩
    · rw [if_neg hre] at h
      cases hsb : sourceBundlesOf ps.bundles
          (dominanceFilter rc (incomingNeighbors rm m)) with
      | error err => simp only [hsb] at h; cases h
      | ok srcs =>
        simp only [hsb] at h
        cases hg : g.getNode m with
        | error err => simp only [hg] at h; cases h
        | ok asset =>
          simp only [hg] at h
          cases htr : List.lookup (dominanceFilter rc (incomingNeighbors rm m))
              ps.bundles with
          | some bid =>
            simp only [htr] at h
            cases hmod : ps.chunk_graph.modifyChunk bid (fun c =>
                { c with module_ids := c.module_ids ++ [m],
                         size := c.size + asset.size }) with
            | error err => simp only [hmod] at h; cases h
            | ok cg2 =>
              simp only [hmod] at h
              cases hA : addEdgesLoop roots
                  (dominanceFilter rc (incomingNeighbors rm m)) bid bid cg2 with
              | error err => simp only [hA] at h; cases h
              | ok cg3 =>
                simp only [hA] at h
                cases h
                constructor
                · exact fun k v hk => hk
                · intro c m0 hG
                  exact graphHas_nodes_eq (addEdgesLoop_nodes hA)
                    (graphHas_modifyAppend (fun ch => ⟨[m], rfl⟩) hmod hG)
          | none =>
            simp only [htr] at h
            cases hmod : (ps.chunk_graph.addNode
                { module_ids := [], size := 0,
                  source_bundles := srcs }).2.modifyChunk
                ps.chunk_graph.nodes.length (fun c =>
                { c with module_ids := c.module_ids ++ [m],
                         size := c.size + asset.size }) with
            | error err =>
              simp only [ChunkGraph.addNode] at h hmod
              simp only [hmod] at h
              cases h
            | ok cg2 =>
              simp only [ChunkGraph.addNode] at h hmod
              simp only [hmod] at h
              cases hA : addEdgesLoop roots
                  (dominanceFilter rc (incomingNeighbors rm m))
                  ps.chunk_graph.nodes.length ps.chunk_graph.nodes.length
                  cg2 with
              | error err => simp only [hA] at h; cases h
              | ok cg3 =>
                simp only [hA] at h
                cases h
                constructor
                · exact fun k v hk => lookup_append_of_some _ hk
                · intro c m0 hG
                  refine graphHas_nodes_eq (addEdgesLoop_nodes hA) ?_
                  refine graphHas_modifyAppend (fun ch => ⟨[m], rfl⟩) hmod ?_
                  exact graphHas_addNode hG

theorem step3Go_mono {g : MGraph} {roots : List (Nat × Nat × Nat)}
    {rc rm : List (Nat × Nat)} :
    ∀ {l : List Nat} {ps ps1 : PlacementSt},
      step3Go g roots rc rm l ps = .ok ps1 →
      (∀ k v, List.lookup k ps.bundles = some v →
        List.lookup k ps1.bundles = some v) ∧
      (∀ c m0, graphHas ps.chunk_graph c m0 →
        graphHas ps1.chunk_graph c m0) := by
  intro l
  induction l with
  | nil =>
    intro ps ps1 h
    cases h
    exact ⟨fun k v hk => hk, fun c m0 hG => hG⟩
  | cons m rest ih =>
    intro ps ps1 h
    unfold step3Go at h
    cases hb : step3Body g roots rc rm m ps with
    | error err => simp only [hb] at h; cases h
    | ok psm =>
      simp only [hb] at h
      obtain ⟨hb1, hb2⟩ := step3Body_mono hb
      obtain ⟨hr1, hr2⟩ := ih h
      exact ⟨fun k v hk => hr1 k v (hb1 k v hk),
        fun c m0 hG => hr2 c m0 (hb2 c m0 hG)⟩

/-- After Step 3 processes a non-root module `m` with a non-empty key, the
`bundles` map sends the key to a chunk that contains `m`. -/
theorem step3Body_processed {g : MGraph} {roots : List (Nat × Nat × Nat)}
    {rc rm : List (Nat × Nat)} {m : Nat} {ps ps1 : PlacementSt}
    (h : step3Body g roots rc rm m ps = .ok ps1)
    (hroot : List.lookup m roots = none) (hne : keyFun rc rm m ≠ []) :
    ∃ c, List.lookup (keyFun rc rm m) ps1.bundles = some c ∧
      graphHas ps1.chunk_graph c m := by
  unfold step3Body at h
  simp only [hroot] at h
  have hre : ¬ (dominanceFilter rc (incomingNeighbors rm m)).isEmpty = true := by
    intro hx
    exact hne (by simpa [keyFun, List.isEmpty_iff] using hx)
  rw [if_neg hre] at h
  cases hsb : sourceBundlesOf ps.bundles
      (dominanceFilter rc (incomingNeighbors rm m)) with
  | error err => simp only [hsb] at h; cases h
  | ok srcs =>
    simp only [hsb] at h
    cases hg : g.getNode m with
    | error err => simp only [hg] at h; cases h
    | ok asset =>
      simp only [hg] at h
      cases htr : List.lookup (dominanceFilter rc (incomingNeighbors rm m))
          ps.bundles with
      | some bid =>
        simp only [htr] at h
        cases hmod : ps.chunk_graph.modifyChunk bid (fun c =>
            { c with module_ids := c.module_ids ++ [m],
                     size := c.size + asset.size }) with
        | error err => simp only [hmod] at h; cases h
        | ok cg2 =>
          simp only [hmod] at h
          cases hA : addEdgesLoop roots
              (dominanceFilter rc (incomingNeighbors rm m)) bid bid cg2 with
          | error err => simp only [hA] at h; cases h
          | ok cg3 =>
            simp only [hA] at h
            cases h
            refine ⟨bid, htr, graphHas_nodes_eq (addEdgesLoop_nodes hA) ?_⟩
            have hlt : bid < ps.chunk_graph.nodes.length := by
              by_contra hge
              unfold ChunkGraph.modifyChunk at hmod
              rw [if_neg hge] at hmod
              cases hmod
            unfold ChunkGraph.modifyChunk at hmod
            rw [if_pos hlt] at hmod
            cases hmod
            refine ⟨Chunk.mk
                ((ps.chunk_graph.nodes.getD bid default).module_ids ++ [m])
                ((ps.chunk_graph.nodes.getD bid default).size + asset.size)
                ((ps.chunk_graph.nodes.getD bid default).source_bundles),
                ?_, ?_⟩
            · exact List.get?_set_eq_of_lt _ hlt
            · simp
      | none =>
        simp only [htr] at h
        cases hmod : (ps.chunk_graph.addNode
            { module_ids := [], size := 0,
              source_bundles := srcs }).2.modifyChunk
            ps.chunk_graph.nodes.length (fun c =>
            { c with module_ids := c.module_ids ++ [m],
                     size := c.size + asset.size }) with
        | error err =>
          simp only [ChunkGraph.addNode] at h hmod
          simp only [hmod] at h
          cases h
        | ok cg2 =>
          simp only [ChunkGraph.addNode] at h hmod
          simp only [hmod] at h
          cases hA : addEdgesLoop roots
              (dominanceFilter rc (incomingNeighbors rm m))
              ps.chunk_graph.nodes.length ps.chunk_graph.nodes.length cg2 with
          | error err => simp only [hA] at h; cases h
          | ok cg3 =>
            simp only [hA] at h
            cases h
            refine ⟨ps.chunk_graph.nodes.length, ?_, ?_⟩
            · simp only [keyFun]
              rw [lookup_append_of_none _ htr]
              simp [List.lookup]
            · refine graphHas_nodes_eq (addEdgesLoop_nodes hA) ?_
              have hlt : ps.chunk_graph.nodes.length <
                  (ps.chunk_graph.nodes ++
                    [(⟨[], 0, srcs⟩ : Chunk)]).length := by
                simp
              unfold ChunkGraph.modifyChunk at hmod
              rw [if_pos hlt] at hmod
              cases hmod
              refine ⟨Chunk.mk
                  (((ps.chunk_graph.nodes ++
                    [(⟨[], 0, srcs⟩ : Chunk)]).getD
                    ps.chunk_graph.nodes.length default).module_ids ++ [m])
                  (((ps.chunk_graph.nodes ++
                    [(⟨[], 0, srcs⟩ : Chunk)]).getD
                    ps.chunk_graph.nodes.length default).size + asset.size)
                  (((ps.chunk_graph.nodes ++
                    [(⟨[], 0, srcs⟩ : Chunk)]).getD
                    ps.chunk_graph.nodes.length default).source_bundles),
                  ?_, ?_⟩
              · exact List.get?_set_eq_of_lt _ hlt
              · have hgd : (ps.chunk_graph.nodes ++
                    [(⟨[], 0, srcs⟩ : Chunk)]).getD
                    ps.chunk_graph.nodes.length default
                    = (⟨[], 0, srcs⟩ : Chunk) := by
                  rw [List.getD_eq_getElem?_getD, List.getElem?_append_right
                    (le_refl _)]
                  simp
                rw [hgd]
                simp

theorem step3Go_processed {g : MGraph} {roots : List (Nat × Nat × Nat)}
    {rc rm : List (Nat × Nat)} {m : Nat}
    (hroot : List.lookup m roots = none) (hne : keyFun rc rm m ≠ []) :
    ∀ {l : List Nat} {ps ps1 : PlacementSt}, m ∈ l →
      step3Go g roots rc rm l ps = .ok ps1 →
      ∃ c, List.lookup (keyFun rc rm m) ps1.bundles = some c ∧
        graphHas ps1.chunk_graph c m := by
  intro l
  induction l with
  | nil => intro ps ps1 hm h; cases hm
  | cons m1 rest ih =>
    intro ps ps1 hm h
    unfold step3Go at h
    cases hb : step3Body g roots rc rm m1 ps with
    | error err => simp only [hb] at h; cases h
    | ok psm =>
      simp only [hb] at h
      rcases List.mem_cons.mp hm with rfl | hm1
      · obtain ⟨c, hc1, hc2⟩ := step3Body_processed hb hroot hne
        obtain ⟨hr1, hr2⟩ := step3Go_mono h
        exact ⟨c, hr1 _ c hc1, hr2 c m hc2⟩
      · exact ih hm1 h

/-! ## C3: the placement key and equal-key modules -/

/-- The Step-1-to-3 pipeline state on `twoSharedGraph` with entries `[0, 1]`,
used to instantiate the C3 theorem on a concrete input. -/
def tsMid3 : Mid3 :=
  ⟨⟨[(0, 0, 0), (1, 1, 1)], [],
    ⟨[⟨[0], 1000, []⟩, ⟨[1], 1000, []⟩], []⟩, []⟩,
   [(0, 3), (0, 2), (1, 3), (1, 2)],
   ⟨[([0], 0), ([1], 1), ([1, 0], 2)],
    ⟨[⟨[0], 1000, []⟩, ⟨[1], 1000, []⟩, ⟨[2, 3], 2000, [1, 0]⟩],
     [(1, 2), (0, 2), (1, 2), (0, 2)]⟩⟩⟩

/-- C3 (amended): in Step 3 the chunk for a non-root module is looked up or
created under the key `keyFun` — the dominance-filtered incoming-root list
exactly in the order the neighbor enumeration yields it, NOT sorted.  The
map-based placement guarantees only that two non-root modules whose key
LISTS are literally equal land in the same shared chunk (this is parametric
in the reachability list, hence independent of the unspecified hash
iteration order behind it); set-equality of the filtered root sets is not by
itself sufficient, so the program does not guarantee one shared chunk per
distinct combination of roots. -/
theorem claim3_theorem {g : MGraph} {e : List Nat} {t : Mid3} {a b : Nat}
    (h : runTo3 g e = .ok t)
    (ha : a < g.nodes.length) (hb : b < g.nodes.length)
    (hra : List.lookup a t.d.chunk_roots = none)
    (hrb : List.lookup b t.d.chunk_roots = none)
    (hkeq : keyFun t.d.reachable_chunks t.rm a
      = keyFun t.d.reachable_chunks t.rm b)
    (hne : keyFun t.d.reachable_chunks t.rm a ≠ []) :
    ∃ c, List.lookup (keyFun t.d.reachable_chunks t.rm a) t.ps.bundles
        = some c ∧
      graphHas t.ps.chunk_graph c a ∧ graphHas t.ps.chunk_graph c b := by
  obtain ⟨h2, h3⟩ := runTo3_parts h
  unfold step3 at h3
  obtain ⟨c1, hc1, hg1⟩ :=
    step3Go_processed hra hne (List.mem_range.mpr ha) h3
  have hneb : keyFun t.d.reachable_chunks t.rm b ≠ [] := by
    rw [← hkeq]; exact hne
  obtain ⟨c2, hc2, hg2⟩ :=
    step3Go_processed hrb hneb (List.mem_range.mpr hb) h3
  refine ⟨c1, hc1, hg1, ?_⟩
  have hc1b : List.lookup (keyFun t.d.reachable_chunks t.rm b)
      t.ps.bundles = some c1 := by rw [← hkeq]; exact hc1
  rw [hc1b] at hc2
  cases hc2
  exact hg2

/-- C3 counterexample: on the literal reference graph the placement key of
`shared.js` (module 4) is `[1, 0]`, which is not in ascending order, so the
key is NOT the sorted tuple of the filtered reachable roots. -/
theorem claim3_counterexample :
    keyOfRun build_graph build_entries 4 = [1, 0] ∧
      ¬ List.Chain' (fun x y => x ≤ y)
        (keyOfRun build_graph build_entries 4) := by
  refine ⟨rfl, ?_⟩
  intro hch
  have h10 : (1 : Nat) ≤ 0 :=
    (List.chain'_cons.mp
      (show List.Chain' (fun x y => x ≤ y) [1, 0] from hch)).1
  exact absurd h10 (by decide)

/-- C3 witness: on `twoSharedGraph` (two entries, two modules shared by
both) the non-root modules 2 and 3 have literally equal keys and are placed
in the same shared chunk. -/
theorem claim3_witness :
    ∃ c, List.lookup (keyFun tsMid3.d.reachable_chunks tsMid3.rm 2)
        tsMid3.ps.bundles = some c ∧
      graphHas tsMid3.ps.chunk_graph c 2 ∧ graphHas tsMid3.ps.chunk_graph c 3 :=
  @claim3_theorem twoSharedGraph [0, 1] tsMid3 2 3 rfl (by decide) (by decide)
    (by decide) (by decide) rfl (by decide)
